import Mathlib

/-!
Shallow embedding of the job-application-letter generator (`src/app.py`).

Text is modeled as `List Char`.  Python's `str.strip`, `str.splitlines`,
the regular-expression substitutions of `excerpt_bullets`, the JSON parsing
of `json.loads` (as used by `parse_jd_summary`), and the orchestration of
the `generate` button handler are embedded as executable Lean functions.
The LLM endpoint is modeled by an oracle: a list of optional responses
consumed one per call (`none` = the call raises a transport/auth/API error,
which `chat` turns into an abort of the whole run).
-/

namespace App

/-- Convert a string literal to the `List Char` representation used throughout. -/
def toCl (s : String) : List Char := s.toList

/-- Whitespace characters recognized by Python's `str.strip()` / `\s`
(ASCII subset: space, tab, newline, carriage return, vertical tab, form feed). -/
def pySpace (c : Char) : Bool :=
  c = ' ' || c = '\t' || c = '\n' || c = '\r' || c = '\x0b' || c = '\x0c'

/-- Line-break characters recognized by Python's `str.splitlines()`
(ASCII subset: `\n`, `\r`, `\x0b`, `\x0c`; the pair `\r\n` counts as one break). -/
def isLineBreak (c : Char) : Bool :=
  c = '\n' || c = '\r' || c = '\x0b' || c = '\x0c'

/-- Drop trailing characters satisfying `p` (the mirror image of `dropWhile`). -/
def dropTrailing (p : Char → Bool) (l : List Char) : List Char :=
  (l.reverse.dropWhile p).reverse

/-- Python's `str.strip(chars)`: remove leading and trailing characters satisfying `p`. -/
def stripBoth (p : Char → Bool) (l : List Char) : List Char :=
  dropTrailing p (l.dropWhile p)

/-- Python's `str.strip()` (whitespace on both ends). -/
def pyStrip (l : List Char) : List Char := stripBoth pySpace l

/-- Attach a character to the front of the first piece of a piece list
(used to build `splitLines` without an accumulator). -/
def prependFirst (c : Char) : List (List Char) → List (List Char)
  | [] => [[c]]
  | l :: ls => (c :: l) :: ls

/-- Python's `str.splitlines()`: split at line-break characters, treating
`\r\n` as a single break; a trailing break produces no extra empty line. -/
def splitLines : List Char → List (List Char)
  | [] => []
  | '\r' :: '\n' :: rest => [] :: splitLines rest
  | c :: rest =>
    if isLineBreak c then [] :: splitLines rest else prependFirst c (splitLines rest)

/- ### Excerpt formatter (`excerpt_bullets`, app.py lines 63-96) -/

/-- Bullet glyphs normalized to line breaks by `excerpt_bullets`
(`re.sub(r"[•·‧▪●]", "\n", snippet)`). -/
def glyphChar (c : Char) : Bool :=
  c = '•' || c = '·' || c = '‧' || c = '▪' || c = '●'

/-- The glyph substitution: each bullet glyph becomes a newline. -/
def glyphSub (l : List Char) : List Char :=
  l.map (fun c => if glyphChar c then '\n' else c)

/-- Fueled scanner for `re.sub(r"\s+-\s+", "\n", snippet)`: a maximal
whitespace run followed by a dash followed by at least one whitespace
character is replaced by a single newline; scanning resumes after the
consumed whitespace.  (Since `\s+` cannot backtrack into the dash, the
regex deterministically consumes maximal whitespace runs, which this
character-by-character scanner reproduces.) -/
def isDashWs (l : List Char) : Bool :=
  (l.head? == some '-') && ((l.tail.head?.map pySpace).getD false)

def dashSubF : Nat → List Char → List Char
  | 0, s => s
  | _ + 1, [] => []
  | fuel + 1, c :: rest =>
    if pySpace c then
      if isDashWs ((c :: rest).dropWhile pySpace) then
        '\n' :: dashSubF fuel (((c :: rest).dropWhile pySpace).tail.dropWhile pySpace)
      else c :: dashSubF fuel rest
    else c :: dashSubF fuel rest

/-- The dash-clause substitution with enough fuel for its input. -/
def dashSub (l : List Char) : List Char := dashSubF (l.length + 1) l

/-- Fueled scanner for `re.split(r"(?<=[.!?])\s+", line)`: split at a
whitespace run whose preceding character is `.`, `!` or `?`.  `prev` is
the character just before the current position (the lookbehind). -/
def sentSplitF : Nat → Option Char → List Char → List (List Char)
  | 0, _, s => [s]
  | _ + 1, _, [] => [[]]
  | fuel + 1, prev, c :: rest =>
    if pySpace c && (prev = some '.' || prev = some '!' || prev = some '?') then
      [] :: sentSplitF fuel none ((c :: rest).dropWhile pySpace)
    else prependFirst c (sentSplitF fuel (some c) rest)

/-- Sentence split of a line with enough fuel. -/
def sentSplit (l : List Char) : List (List Char) := sentSplitF (l.length + 1) none l

/-- Index of the last character satisfying `p` (Python's `str.rfind` restricted
to a single-character needle), if any. -/
def rfindIdx (p : Char → Bool) : List Char → Option Nat
  | [] => none
  | c :: rest =>
    match rfindIdx p rest with
    | some k => some (k + 1)
    | none => if p c then some 0 else none

/-- Truncation step of `excerpt_bullets` (lines 68-73): on an over-limit text
the snippet is cut back to the last space (when one exists at a positive
index) and an ellipsis is appended. -/
def truncateAtWord (snippet : List Char) : List Char :=
  match rfindIdx (· = ' ') snippet with
  | some k => if 0 < k then snippet.take k ++ toCl "..." else snippet ++ toCl "..."
  | none => snippet ++ toCl "..."

/-- The snippet taken by `excerpt_bullets` from its input: the stripped text,
cut to `limit` characters with word-boundary truncation when over the limit. -/
def mkSnippet (text : List Char) (limit : Nat) : List Char :=
  let raw := pyStrip text
  let snippet := raw.take limit
  if limit < raw.length then truncateAtWord snippet else snippet

/-- Fueled hard-wrap loop of `excerpt_bullets` (lines 84-95): chunks of at
most 120 characters, breaking at the last space in the first 121 characters
when one exists at a positive index, else hard-cutting at 120. -/
def wrapF : Nat → List Char → List (List Char)
  | _, [] => []
  | 0, l => [l]
  | fuel + 1, line =>
    if line.length ≤ 120 then [line]
    else
      let cut :=
        match rfindIdx (· = ' ') (line.take 121) with
        | some k => if k = 0 then 120 else k
        | none => 120
      pyStrip (line.take cut) :: wrapF fuel (pyStrip (line.drop cut))

/-- Lines of the substituted snippet (app.py lines 76-78): stripped, blanks
dropped, falling back to the whole snippet when nothing remains. -/
def excerptLines (s2 : List Char) : List (List Char) :=
  let lines0 := ((splitLines s2).map pyStrip).filter (fun l => !l.isEmpty)
  if lines0.isEmpty then [s2] else lines0

/-- Sentence fragments of one line (app.py lines 81-82): split at sentence
boundaries, stripped, blanks dropped, falling back to the line itself. -/
def lineParts (line : List Char) : List (List Char) :=
  let parts := ((sentSplit line).map pyStrip).filter (fun p => !p.isEmpty)
  if parts.isEmpty then [line] else parts

/-- The list of bullet fragments produced by `excerpt_bullets` for nonempty
input (the value of `expanded` at line 96 of app.py). -/
def excerptExpanded (text : List Char) (limit : Nat) : List (List Char) :=
  let s2 := dashSub (glyphSub (mkSnippet text limit))
  let expanded := ((excerptLines s2).map lineParts).flatten
  match expanded with
  | [e] => if 140 < e.length then wrapF (e.length + 1) e else [e]
  | _ => expanded

/-- Python's `"\n".join(pieces)`. -/
def joinNl : List (List Char) → List Char
  | [] => []
  | [x] => x
  | x :: xs => x ++ '\n' :: joinNl xs

/-- Model of `excerpt_bullets(text, limit=500)` (app.py lines 63-96): the rendered
bulleted preview, one `- ` prefixed line per fragment. -/
def excerpt_bullets (text : List Char) (limit : Nat := 500) : List Char :=
  if text.isEmpty then toCl "- [empty]"
  else joinNl ((excerptExpanded text limit).map (fun l => '-' :: ' ' :: l))

/-- Remove the leading `- ` bullet marker from one rendered line (a line
that is just the dash of a marker loses it too). -/
def stripMarker (l : List Char) : List Char :=
  if l.take 2 = ['-', ' '] then l.drop 2 else if l = ['-'] then [] else l

/-- Fueled whitespace tokenizer (the words of a string). -/
def wsWordsF : Nat → List Char → List (List Char)
  | 0, _ => []
  | f + 1, l =>
    match l.dropWhile pySpace with
    | [] => []
    | l' => l'.takeWhile (fun c => !pySpace c) ::
        wsWordsF f (l'.dropWhile (fun c => !pySpace c))

/-- The words of a string (split on whitespace, blanks dropped). -/
def wsWords (l : List Char) : List (List Char) := wsWordsF (l.length + 1) l

/-- Whitespace normalization: words rejoined by single spaces. -/
def normWs (l : List Char) : List Char := List.intercalate [' '] (wsWords l)

/-- The rendered excerpt with bullet markers stripped from each line and
line breaks treated as separators (the claim's reading of the output). -/
def stripRender (out : List Char) : List Char :=
  List.intercalate [' '] ((splitLines out).map stripMarker)

/- ### JSON values and a model of Python's `json.loads` -/

/-- JSON values as produced by `json.loads`.  Numbers keep their raw lexeme
(their numeric value is never inspected by the program); objects keep their
key/value pairs in textual order. -/
inductive Json where
  | null
  | bool (b : Bool)
  | num (raw : List Char)
  | str (s : List Char)
  | arr (xs : List Json)
  | obj (kvs : List (List Char × Json))
deriving Repr

/-- JSON whitespace (the characters `json.loads` skips between tokens). -/
def jWs (c : Char) : Bool := c = ' ' || c = '\t' || c = '\n' || c = '\r'

/-- Skip JSON whitespace. -/
def skipWs (s : List Char) : List Char := s.dropWhile jWs

/-- Value of a hexadecimal digit. -/
def hexVal (c : Char) : Option Nat :=
  if '0' ≤ c ∧ c ≤ '9' then some (c.toNat - 48)
  else if 'a' ≤ c ∧ c ≤ 'f' then some (c.toNat - 87)
  else if 'A' ≤ c ∧ c ≤ 'F' then some (c.toNat - 55)
  else none

/-- Parse exactly four hex digits (the `XXXX` of a `\uXXXX` escape). -/
def parseHex4 : List Char → Option (Nat × List Char)
  | a :: b :: c :: d :: rest =>
    match hexVal a, hexVal b, hexVal c, hexVal d with
    | some x, some y, some z, some w => some (((x * 16 + y) * 16 + z) * 16 + w, rest)
    | _, _, _, _ => none
  | _ => none

/-- Single-character string escapes of JSON. -/
def escChar : Char → Option Char
  | '"' => some '"'
  | '\\' => some '\\'
  | '/' => some '/'
  | 'b' => some '\x08'
  | 'f' => some '\x0c'
  | 'n' => some '\n'
  | 'r' => some '\r'
  | 't' => some '\t'
  | _ => none

/-- Fueled scanner for a JSON string body (the opening quote already
consumed); returns the decoded content and the input after the closing
quote.  Unescaped control characters are rejected (strict mode).  A valid
surrogate pair combines into one scalar; a lone surrogate is approximated
by U+FFFD (Lean's `Char` cannot carry lone surrogates). -/
def parseJStr : Nat → List Char → Option (List Char × List Char)
  | 0, _ => none
  | _ + 1, [] => none
  | fuel + 1, c :: rest =>
    if c = '"' then some ([], rest)
    else if c = '\\' then
      match rest with
      | [] => none
      | 'u' :: r2 =>
        match parseHex4 r2 with
        | none => none
        | some (code, r3) =>
          if 0xD800 ≤ code ∧ code ≤ 0xDBFF then
            match r3 with
            | '\\' :: 'u' :: r4 =>
              match parseHex4 r4 with
              | some (lo, r5) =>
                if 0xDC00 ≤ lo ∧ lo ≤ 0xDFFF then
                  (parseJStr fuel r5).map (fun p =>
                    (Char.ofNat (0x10000 + (code - 0xD800) * 0x400 + (lo - 0xDC00)) :: p.1, p.2))
                else (parseJStr fuel r3).map (fun p => ('�' :: p.1, p.2))
              | none => (parseJStr fuel r3).map (fun p => ('�' :: p.1, p.2))
            | _ => (parseJStr fuel r3).map (fun p => ('�' :: p.1, p.2))
          else if 0xDC00 ≤ code ∧ code ≤ 0xDFFF then
            (parseJStr fuel r3).map (fun p => ('�' :: p.1, p.2))
          else (parseJStr fuel r3).map (fun p => (Char.ofNat code :: p.1, p.2))
      | e :: r2 =>
        match escChar e with
        | some ch => (parseJStr fuel r2).map (fun p => (ch :: p.1, p.2))
        | none => none
    else if c.toNat < 0x20 then none
    else (parseJStr fuel rest).map (fun p => (c :: p.1, p.2))

/-- Consume the optional fraction and exponent after an integer part `pre`
(the groups `(\.\d+)?([eE][+-]?\d+)?` of the JSON number grammar; a
malformed group is simply not consumed, as with the regular expression). -/
def numTail (pre : List Char) (s : List Char) : List Char × List Char :=
  let fr : List Char × List Char :=
    match s with
    | '.' :: r =>
      let ds := r.takeWhile Char.isDigit
      if ds.isEmpty then ([], s) else ('.' :: ds, r.dropWhile Char.isDigit)
    | _ => ([], s)
  let ex : List Char × List Char :=
    match fr.2 with
    | e :: r =>
      if e = 'e' ∨ e = 'E' then
        let sgr : List Char × List Char :=
          match r with
          | '+' :: rr => (['+'], rr)
          | '-' :: rr => (['-'], rr)
          | _ => ([], r)
        let ds := sgr.2.takeWhile Char.isDigit
        if ds.isEmpty then ([], fr.2)
        else (e :: sgr.1 ++ ds, sgr.2.dropWhile Char.isDigit)
      else ([], fr.2)
    | [] => ([], fr.2)
  (pre ++ fr.1 ++ ex.1, ex.2)

/-- Lex a JSON number (`-?(0|[1-9]\d*)(\.\d+)?([eE][+-]?\d+)?`), returning
its raw lexeme and the rest of the input. -/
def parseNum : List Char → Option (List Char × List Char)
  | '-' :: s1 =>
    match s1 with
    | '0' :: r => some (numTail ['-', '0'] r)
    | c :: r =>
      if c.isDigit then
        some (numTail ('-' :: c :: r.takeWhile Char.isDigit) (r.dropWhile Char.isDigit))
      else none
    | [] => none
  | '0' :: r => some (numTail ['0'] r)
  | c :: r =>
    if c.isDigit then
      some (numTail (c :: r.takeWhile Char.isDigit) (r.dropWhile Char.isDigit))
    else none
  | [] => none

mutual

/-- Fueled recursive-descent parser for one JSON value (model of the scanner
behind `json.loads`): objects, arrays, strings, the keyword literals
(including Python's `NaN`, `Infinity`, `-Infinity` extensions), numbers. -/
def parseVal : Nat → List Char → Option (Json × List Char)
  | 0, _ => none
  | fuel + 1, s =>
    match s with
    | [] => none
    | '\x7b' :: r =>
      match skipWs r with
      | '\x7d' :: r2 => some (.obj [], r2)
      | s2 => (parseMembers fuel s2).map (fun p => (.obj p.1, p.2))
    | '[' :: r =>
      match skipWs r with
      | ']' :: r2 => some (.arr [], r2)
      | s2 => (parseElems fuel s2).map (fun p => (.arr p.1, p.2))
    | '"' :: r => (parseJStr fuel r).map (fun p => (.str p.1, p.2))
    | s =>
      if (toCl "true").isPrefixOf s then some (.bool true, s.drop 4)
      else if (toCl "false").isPrefixOf s then some (.bool false, s.drop 5)
      else if (toCl "null").isPrefixOf s then some (.null, s.drop 4)
      else if (toCl "NaN").isPrefixOf s then some (.num (toCl "NaN"), s.drop 3)
      else if (toCl "Infinity").isPrefixOf s then some (.num (toCl "Infinity"), s.drop 8)
      else if (toCl "-Infinity").isPrefixOf s then some (.num (toCl "-Infinity"), s.drop 9)
      else (parseNum s).map (fun p => (.num p.1, p.2))

/-- Parse the members of a JSON object, positioned at a key (after `{` and
whitespace); the empty-object case is handled by `parseVal`. -/
def parseMembers : Nat → List Char → Option (List (List Char × Json) × List Char)
  | 0, _ => none
  | fuel + 1, s =>
    match s with
    | '"' :: r =>
      match parseJStr fuel r with
      | none => none
      | some (k, r2) =>
        match skipWs r2 with
        | ':' :: r3 =>
          match parseVal fuel (skipWs r3) with
          | none => none
          | some (v, r4) =>
            match skipWs r4 with
            | ',' :: r5 =>
              match skipWs r5 with
              | s6 => (parseMembers fuel s6).map (fun p => ((k, v) :: p.1, p.2))
            | '\x7d' :: r5 => some ([(k, v)], r5)
            | _ => none
        | _ => none
    | _ => none

/-- Parse the elements of a JSON array, positioned at a value (after `[` and
whitespace); the empty-array case is handled by `parseVal`. -/
def parseElems : Nat → List Char → Option (List Json × List Char)
  | 0, _ => none
  | fuel + 1, s =>
    match parseVal fuel s with
    | none => none
    | some (v, r) =>
      match skipWs r with
      | ',' :: r2 => (parseElems fuel (skipWs r2)).map (fun p => (v :: p.1, p.2))
      | ']' :: r2 => some ([v], r2)
      | _ => none

end

/-- Model of `json.loads`: skip leading whitespace, parse one value, require
only whitespace to remain.  Total (`none` models `JSONDecodeError`). -/
def jsonLoads (s : List Char) : Option Json :=
  match parseVal (2 * s.length + 8) (skipWs s) with
  | some (v, rest) => if (skipWs rest).isEmpty then some v else none
  | none => none

/- ### JD-summary parsing (`parse_jd_summary`, app.py lines 116-131) -/

/-- Case-insensitive prefix test (ASCII folding), for `re.I` patterns. -/
def ciIsPre : List Char → List Char → Bool
  | [], _ => true
  | _, [] => false
  | p :: ps, c :: cs => (p.toLower = c.toLower) && ciIsPre ps cs

/-- Model of `re.sub(r"^```(?:json)?\s*", "", cleaned, flags=re.I)`: drop one
leading code-fence marker (optionally tagged `json`, case-insensitively) and
the whitespace after it. -/
def dropFenceStart (s : List Char) : List Char :=
  if (toCl "```").isPrefixOf s then
    let r := s.drop 3
    let r2 := if ciIsPre (toCl "json") r then r.drop 4 else r
    r2.dropWhile pySpace
  else s

/-- Model of `re.sub(r"\s*```$", "", cleaned)` on an already right-stripped
string: drop one trailing code-fence marker and the whitespace before it. -/
def dropFenceEnd (s : List Char) : List Char :=
  if (toCl "```").isSuffixOf s then dropTrailing pySpace (s.take (s.length - 3))
  else s

/-- Model of `re.search(r"\{.*\}", cleaned, flags=re.S)`: the substring from
the first opening brace to the last closing brace after it, if both exist. -/
def braceSpan (s : List Char) : Option (List Char) :=
  let pre := s.takeWhile (· ≠ '\x7b')
  match s.drop pre.length with
  | [] => none
  | _ :: rest =>
    match rest.reverse.dropWhile (· ≠ '\x7d') with
    | [] => none
    | revTail => some ('\x7b' :: revTail.reverse)

/-- Model of `parse_jd_summary(text)` (app.py lines 116-131): strip code fences,
attempt a direct JSON parse, and on failure retry on the first-to-last
brace span; `none` models returning `None`. -/
def parse_jd_summary (t : List Char) : Option Json :=
  if t.isEmpty then none
  else
    let cleaned := dropFenceEnd (dropFenceStart (pyStrip t))
    match jsonLoads cleaned with
    | some j => some j
    | none =>
      match braceSpan cleaned with
      | some sp => jsonLoads sp
      | none => none

/- ### Fallback requirement extraction (`fallback_requirements`, lines 134-146) -/

/-- Strip a leading key label (`re.sub(r'^(company_name|role_title|requirements)\s*:\s*', '', line, flags=re.I)`)
for one candidate keyword; `none` when the full pattern does not match. -/
def stripLabelKw (kw : List Char) (l : List Char) : Option (List Char) :=
  if ciIsPre kw l then
    match (l.drop kw.length).dropWhile pySpace with
    | ':' :: r2 => some (r2.dropWhile pySpace)
    | _ => none
  else none

/-- Strip a leading key-name label from a fallback line, if present. -/
def stripLabel (l : List Char) : List Char :=
  match stripLabelKw (toCl "company_name") l with
  | some r => r
  | none =>
    match stripLabelKw (toCl "role_title") l with
    | some r => r
    | none =>
      match stripLabelKw (toCl "requirements") l with
      | some r => r
      | none => l

/-- Bare structural characters skipped by `fallback_requirements`. -/
def isStructuralLine (l : List Char) : Bool :=
  l = ['\x7b'] || l = ['\x7d'] || l = ['['] || l = [']']

/-- Processing of one line of `fallback_requirements`: strip whitespace and
commas, skip blank and bare-structural lines, strip quotes and key labels,
keep the line if anything remains. -/
def procFallbackLine (raw : List Char) : Option (List Char) :=
  let line := stripBoth (· = ',') (pyStrip raw)
  if line.isEmpty || isStructuralLine line then none
  else
    let l4 := stripLabel (stripBoth (· = '"') line)
    if l4.isEmpty then none else some l4

/-- Model of `fallback_requirements(text, limit=10)` (app.py lines 134-146). -/
def fallback_requirements (t : List Char) (limit : Nat := 10) : List (List Char) :=
  if t.isEmpty then [] else ((splitLines t).filterMap procFallbackLine).take limit

/- ### Display-time requirement normalization (`normalize_requirements`, lines 99-113) -/

/-- Bullet markers stripped (once) from the front of a requirement entry
(`re.sub(r"^[-•·‧▪●]\s*", "", text)`). -/
def bulletMarkChar (c : Char) : Bool :=
  c = '-' || c = '•' || c = '·' || c = '‧' || c = '▪' || c = '●'

/-- Remove one leading bullet marker (and the whitespace after it). -/
def stripOneBullet (text : List Char) : List Char :=
  match text with
  | c :: rest => if bulletMarkChar c then rest.dropWhile pySpace else text
  | [] => []

/-- Processing of one item of `normalize_requirements`: strip, skip blanks,
remove one leading bullet marker (an entry can become empty here and is
still kept, as in the source). -/
def normReqItem (item : List Char) : Option (List Char) :=
  let text := pyStrip item
  if text.isEmpty then none else some (stripOneBullet text)

/-- Extract the items of a JSON list as strings, failing at the first item
that is not a string (a decoded JSON value other than a string has no
`.strip` method, so Python's loop raises `AttributeError` there). -/
def strItems : List Json → Option (List (List Char))
  | [] => some []
  | Json.str s :: rest => (strItems rest).map (s :: ·)
  | _ :: _ => none

/-- Model of `normalize_requirements(reqs)` (app.py lines 99-113).  The dynamic input
(`jd_summary.get("requirements")`) is a JSON value or absent; a list item
that is not a string raises `AttributeError` in Python — modeled by
`Except.error`. -/
def normalize_requirements : Option Json → Except Unit (List (List Char))
  | some (.arr items) =>
    match strItems items with
    | none => .error ()
    | some strs => .ok (strs.filterMap normReqItem)
  | some (.str s) => .ok ((splitLines s).filterMap normReqItem)
  | _ => .ok []

/- ### The LLM orchestration (`generate` handler, app.py lines 180-281) -/

/-- Session-scoped state written by a successful run (app.py lines 278-281). -/
structure SessionState where
  final_letter : List Char
  facts_block : List Char
  recent_jobs : List (List Char)
  jd_summary : Json
deriving Repr

/-- Initial session state (app.py lines 169-176). -/
def initialSession : SessionState := ⟨[], [], [], Json.obj []⟩

/-- Labels of the five LLM calls of the pipeline. -/
inductive Stage where
  | jdSum
  | cvFacts
  | recentJobs
  | draftLetter
  | verifyLetter
deriving DecidableEq, Repr

/-- The fixed order of the pipeline's LLM calls. -/
def pipelineOrder : List Stage :=
  [.jdSum, .cvFacts, .recentJobs, .draftLetter, .verifyLetter]

/-- User-visible errors on which the handler calls `st.error` + `st.stop`. -/
inductive GenError where
  | noApiKey
  | emptyCv
  | emptyJd
  | apiError
  | noFacts
deriving DecidableEq, Repr

/-- Result of one run of the `generate` handler: the session state after the
run, the LLM calls issued (in order, including a failing one), and the
error that aborted the run, if any. -/
structure GenResult where
  state : SessionState
  calls : List Stage
  err : Option GenError
deriving Repr

/-- Model of `read_uploaded` at the orchestration level: an upload is
represented by the text its extraction yields (`none` = no file, which
yields the empty string, app.py lines 28-29); the PDF/UTF-8 decoding itself
is external I/O and not part of this model. -/
def read_uploaded (u : Option (List Char)) : List Char := u.getD []

/-- Model of `pick_input(text_value, file_value)` (app.py lines 40-43): a non-blank
pasted text wins (stripped); otherwise the uploaded file's text. -/
def pick_input (textValue : List Char) (fileValue : Option (List Char)) : List Char :=
  if !textValue.isEmpty && !(pyStrip textValue).isEmpty then pyStrip textValue
  else read_uploaded fileValue

/-- Bullet parsing of an LLM response (app.py lines 218-222 and 240-244):
lines whose stripped form starts with `- ` contribute `line[2:].strip()`. -/
def parseBulletLines (t : List Char) : List (List Char) :=
  (splitLines t).filterMap (fun line =>
    if ['-', ' '].isPrefixOf (pyStrip line) then some (pyStrip (line.drop 2)) else none)

/-- One `chat` call against the oracle: consume the next scripted response;
a `none` entry (or an exhausted oracle) models a transport/auth/API error,
on which `chat` shows an error and stops the script.  A successful response
is stripped, as in `chat` (app.py line 56). -/
def chatStep (oracle : List (Option (List Char))) :
    Option (List Char × List (Option (List Char))) :=
  match oracle with
  | some r :: rest => some (pyStrip r, rest)
  | _ => none

/-- Serialization of the fact list (app.py line 228). -/
def mkFactsBlock (facts : List (List Char)) : List Char :=
  joinNl (facts.map (fun f => '-' :: ' ' :: f))

/-- Degraded JD summary used when parsing fails (app.py line 208). -/
def jdFallbackSummary (jdRespText : List Char) : Json :=
  .obj [(toCl "requirements", .arr ((fallback_requirements jdRespText).map .str))]

/-- The five LLM stages of the `generate` handler (app.py lines 198-281),
run after input validation: JD summary, CV facts (aborting when no bulleted
fact is found), recent jobs, draft, verification; the session state is
overwritten — all four fields at once — only after the verification call
returns.  The stages depend only on the oracle's responses. -/
def pipelineRun (oracle : List (Option (List Char))) (st0 : SessionState) : GenResult :=
  match chatStep oracle with
  | none => ⟨st0, [.jdSum], some .apiError⟩
  | some (jdResp, o1) =>
    let jdSummary :=
      match parse_jd_summary jdResp with
      | some j => j
      | none => jdFallbackSummary jdResp
    match chatStep o1 with
    | none => ⟨st0, [.jdSum, .cvFacts], some .apiError⟩
    | some (factsText, o2) =>
      let facts := parseBulletLines factsText
      if facts.isEmpty then ⟨st0, [.jdSum, .cvFacts], some .noFacts⟩
      else
        let factsBlock := mkFactsBlock facts
        match chatStep o2 with
        | none => ⟨st0, [.jdSum, .cvFacts, .recentJobs], some .apiError⟩
        | some (jobsText, o3) =>
          let recentJobs := parseBulletLines jobsText
          match chatStep o3 with
          | none => ⟨st0, [.jdSum, .cvFacts, .recentJobs, .draftLetter], some .apiError⟩
          | some (_draftResp, o4) =>
            match chatStep o4 with
            | none => ⟨st0, pipelineOrder, some .apiError⟩
            | some (finalResp, _) =>
              ⟨⟨finalResp, factsBlock, recentJobs, jdSummary⟩, pipelineOrder, none⟩

/-- The `generate` button handler (app.py lines 180-281): validate inputs
(credential, CV text, JD text), then run the five-stage pipeline. -/
def generate (apiKey : List Char) (cvFile jdFile letterFile : Option (List Char))
    (jdText : List Char) (oracle : List (Option (List Char)))
    (st0 : SessionState) : GenResult :=
  if apiKey.isEmpty then ⟨st0, [], some .noApiKey⟩
  else
    let cvInput := pick_input [] cvFile
    let jdInput := pick_input jdText jdFile
    let _letterInput := pick_input [] letterFile
    if cvInput.isEmpty then ⟨st0, [], some .emptyCv⟩
    else if jdInput.isEmpty then ⟨st0, [], some .emptyJd⟩
    else pipelineRun oracle st0

/-! ## Theorems -/

/-- C4: whenever the pasted job-description text is non-blank (present), input
selection returns the pasted text, stripped — never the uploaded file's text. -/
theorem pick_input_pasted_precedence (t : List Char) (f : Option (List Char))
    (h : pyStrip t ≠ []) : pick_input t f = pyStrip t := by
  have ht : t ≠ [] := by
    intro e
    exact h (by simp [e, pyStrip, stripBoth, dropTrailing])
  simp [pick_input, List.isEmpty_iff, ht, h]

/-- Witness for C4 at a concrete pasted text and uploaded file. -/
theorem pick_input_pasted_precedence_witness :
    pyStrip (toCl " jd text ") ≠ [] ∧
      pick_input (toCl " jd text ") (some (toCl "file text")) = pyStrip (toCl " jd text ") :=
  ⟨by decide, pick_input_pasted_precedence (toCl " jd text ") (some (toCl "file text")) (by decide)⟩

/-- C3: each input error (missing credential, empty CV text, empty JD text,
fact extraction yielding zero `- ` lines) halts the run with a user-visible
error, makes no further LLM calls (zero for the first three, exactly the two
already made for the empty-fact case), and leaves the session state unchanged. -/
theorem generate_input_errors :
    (∀ cvF jdF ltF jdT oracle st0,
        generate [] cvF jdF ltF jdT oracle st0 = ⟨st0, [], some .noApiKey⟩) ∧
    (∀ key cvF jdF ltF jdT oracle st0, key ≠ [] → pick_input [] cvF = [] →
        generate key cvF jdF ltF jdT oracle st0 = ⟨st0, [], some .emptyCv⟩) ∧
    (∀ key cvF jdF ltF jdT oracle st0, key ≠ [] → pick_input [] cvF ≠ [] →
        pick_input jdT jdF = [] →
        generate key cvF jdF ltF jdT oracle st0 = ⟨st0, [], some .emptyJd⟩) ∧
    (∀ key cvF jdF ltF jdT r1 r2 rest st0, key ≠ [] → pick_input [] cvF ≠ [] →
        pick_input jdT jdF ≠ [] → parseBulletLines (pyStrip r2) = [] →
        generate key cvF jdF ltF jdT (some r1 :: some r2 :: rest) st0 =
          ⟨st0, [.jdSum, .cvFacts], some .noFacts⟩) := by
  refine ⟨?_, ?_, ?_, ?_⟩ <;> intros <;>
    simp_all [generate, pipelineRun, chatStep, List.isEmpty_iff]

/-- Witness for C3: the four input-error scenarios at concrete inputs. -/
theorem generate_input_errors_witness :
    generate [] (some (toCl "cv")) none none [] [] initialSession =
        ⟨initialSession, [], some .noApiKey⟩ ∧
    generate (toCl "k") none none none [] [] initialSession =
        ⟨initialSession, [], some .emptyCv⟩ ∧
    generate (toCl "k") (some (toCl "cv")) none none [] [] initialSession =
        ⟨initialSession, [], some .emptyJd⟩ ∧
    generate (toCl "k") (some (toCl "cv")) (some (toCl "jd")) none []
        [some (toCl "ok"), some (toCl "no bullets")] initialSession =
        ⟨initialSession, [Stage.jdSum, Stage.cvFacts], some .noFacts⟩ :=
  ⟨generate_input_errors.1 _ _ _ _ _ _,
   generate_input_errors.2.1 _ _ _ _ _ _ _ (by decide) (by decide),
   generate_input_errors.2.2.1 _ _ _ _ _ _ _ (by decide) (by decide) (by decide),
   generate_input_errors.2.2.2 _ _ _ _ _ _ _ _ _ (by decide) (by decide) (by decide) (by decide)⟩

/-- Under valid inputs, the handler runs the pipeline. -/
theorem generate_valid (key : List Char) (cvF jdF ltF : Option (List Char))
    (jdT : List Char) (oracle : List (Option (List Char))) (st0 : SessionState)
    (hk : key ≠ []) (hc : pick_input [] cvF ≠ []) (hj : pick_input jdT jdF ≠ []) :
    generate key cvF jdF ltF jdT oracle st0 = pipelineRun oracle st0 := by
  simp [generate, List.isEmpty_iff, hk, hc, hj]

/-- Structural invariants of a pipeline run: the calls issued form a prefix
of the fixed order, a failed run leaves the state untouched, a completed run
made all five calls, and the state changes only on an error-free run. -/
theorem pipelineRun_spec (oracle : List (Option (List Char))) (st0 : SessionState) :
    (pipelineRun oracle st0).calls <+: pipelineOrder ∧
    ((pipelineRun oracle st0).err.isSome → (pipelineRun oracle st0).state = st0) ∧
    ((pipelineRun oracle st0).err = none → (pipelineRun oracle st0).calls = pipelineOrder) ∧
    ((pipelineRun oracle st0).state ≠ st0 → (pipelineRun oracle st0).err = none) := by
  rcases oracle with _ | ⟨_ | r1, _ | ⟨_ | r2, _ | ⟨_ | r3, _ | ⟨_ | r4, _ | ⟨_ | r5, rest⟩⟩⟩⟩⟩ <;>
    (try by_cases hf : parseBulletLines (pyStrip r2) = []) <;>
    simp_all [pipelineRun, chatStep, List.isEmpty_iff] <;>
    decide

/-- A fully scripted oracle with a non-empty extracted fact list drives the
pipeline through all five stages in order and writes all four state fields
at once from that run's responses. -/
theorem pipelineRun_complete (r1 r2 r3 r4 r5 : List Char)
    (rest : List (Option (List Char))) (st0 : SessionState)
    (hf : parseBulletLines (pyStrip r2) ≠ []) :
    pipelineRun (some r1 :: some r2 :: some r3 :: some r4 :: some r5 :: rest) st0 =
      ⟨⟨pyStrip r5, mkFactsBlock (parseBulletLines (pyStrip r2)),
        parseBulletLines (pyStrip r3),
        (match parse_jd_summary (pyStrip r1) with
         | some j => j
         | none => jdFallbackSummary (pyStrip r1))⟩, pipelineOrder, none⟩ := by
  simp [pipelineRun, chatStep, List.isEmpty_iff, hf]

/-- C1: with a credential and non-empty CV and JD text, the LLM calls issued
form a prefix of the fixed order (JD summary, CV facts, recent jobs, draft,
verify); the session state differs from its pre-run value only if all five
calls completed with no error (state is written only after verification
returns); and a fully answered oracle with a non-empty fact list yields
exactly the five calls in that order. -/
theorem generate_call_order (key : List Char) (cvF jdF ltF : Option (List Char))
    (jdT : List Char) (oracle : List (Option (List Char))) (st0 : SessionState)
    (hk : key ≠ []) (hc : pick_input [] cvF ≠ []) (hj : pick_input jdT jdF ≠ []) :
    (generate key cvF jdF ltF jdT oracle st0).calls <+: pipelineOrder ∧
    ((generate key cvF jdF ltF jdT oracle st0).state ≠ st0 →
      (generate key cvF jdF ltF jdT oracle st0).calls = pipelineOrder ∧
      (generate key cvF jdF ltF jdT oracle st0).err = none) ∧
    (∀ r1 r2 r3 r4 r5 rest,
      oracle = some r1 :: some r2 :: some r3 :: some r4 :: some r5 :: rest →
      parseBulletLines (pyStrip r2) ≠ [] →
      (generate key cvF jdF ltF jdT oracle st0).calls = pipelineOrder) := by
  rw [generate_valid key cvF jdF ltF jdT oracle st0 hk hc hj]
  obtain ⟨h1, _, h3, h4⟩ := pipelineRun_spec oracle st0
  refine ⟨h1, fun hs => ⟨h3 (h4 hs), h4 hs⟩, ?_⟩
  rintro r1 r2 r3 r4 r5 rest rfl hf
  rw [pipelineRun_complete r1 r2 r3 r4 r5 rest st0 hf]

/-- Witness for C1 at concrete inputs (a fully scripted successful run). -/
theorem generate_call_order_witness :
    (generate (toCl "k") (some (toCl "cv")) none none (toCl "jd")
        [some (toCl "- f"), some (toCl "- f"), some (toCl "- j"),
         some (toCl "letter"), some (toCl "final")] initialSession).calls <+: pipelineOrder ∧
    ((generate (toCl "k") (some (toCl "cv")) none none (toCl "jd")
        [some (toCl "- f"), some (toCl "- f"), some (toCl "- j"),
         some (toCl "letter"), some (toCl "final")] initialSession).state ≠ initialSession →
      (generate (toCl "k") (some (toCl "cv")) none none (toCl "jd")
        [some (toCl "- f"), some (toCl "- f"), some (toCl "- j"),
         some (toCl "letter"), some (toCl "final")] initialSession).calls = pipelineOrder ∧
      (generate (toCl "k") (some (toCl "cv")) none none (toCl "jd")
        [some (toCl "- f"), some (toCl "- f"), some (toCl "- j"),
         some (toCl "letter"), some (toCl "final")] initialSession).err = none) ∧
    (∀ r1 r2 r3 r4 r5 rest,
      ([some (toCl "- f"), some (toCl "- f"), some (toCl "- j"),
        some (toCl "letter"), some (toCl "final")] :
          List (Option (List Char))) = some r1 :: some r2 :: some r3 :: some r4 :: some r5 :: rest →
      parseBulletLines (pyStrip r2) ≠ [] →
      (generate (toCl "k") (some (toCl "cv")) none none (toCl "jd")
        [some (toCl "- f"), some (toCl "- f"), some (toCl "- j"),
         some (toCl "letter"), some (toCl "final")] initialSession).calls = pipelineOrder) :=
  generate_call_order (toCl "k") (some (toCl "cv")) none none (toCl "jd")
    [some (toCl "- f"), some (toCl "- f"), some (toCl "- j"),
     some (toCl "letter"), some (toCl "final")] initialSession
    (by decide) (by decide) (by decide)

/-- A successful `chat` call consumes exactly the first scripted response. -/
theorem chatStep_tail {oracle : List (Option (List Char))} {x : List Char}
    {o' : List (Option (List Char))} (h : chatStep oracle = some (x, o')) :
    oracle.tail = o' := by
  cases oracle with
  | nil => simp [chatStep] at h
  | cons a rest =>
    cases a with
    | none => simp [chatStep] at h
    | some r =>
      simp [chatStep] at h
      simpa using h.2

/-- Dropping one more element drops from the tail. -/
theorem drop_succ_eq {α : Type} (l : List α) (n : Nat) : l.drop (n + 1) = (l.drop n).tail := by
  induction n generalizing l with
  | zero => cases l <;> simp
  | succ n ih =>
    cases l with
    | nil => simp
    | cons a t =>
      rw [List.drop_succ_cons, List.drop_succ_cons]
      exact ih t

/-- A failing pipeline run halts at the failing stage: its error is an API
error or the empty-fact check; the empty-fact check stops after exactly the
two calls already made; and on an API error the last recorded call is
precisely the one whose oracle response failed, every earlier recorded call
having received a response — no stage runs after the failure. -/
theorem pipelineRun_halt (oracle : List (Option (List Char))) (st0 : SessionState) :
    ∀ e, (pipelineRun oracle st0).err = some e →
      (e = GenError.apiError ∨ e = GenError.noFacts) ∧
      (e = GenError.noFacts →
        (pipelineRun oracle st0).calls = [Stage.jdSum, Stage.cvFacts]) ∧
      (e = GenError.apiError →
        chatStep (oracle.drop ((pipelineRun oracle st0).calls.length - 1)) = none ∧
        ∀ j, j + 1 < (pipelineRun oracle st0).calls.length →
          (chatStep (oracle.drop j)).isSome) := by
  intro e he
  cases h1 : chatStep oracle with
  | none =>
    have hP : pipelineRun oracle st0 = ⟨st0, [.jdSum], some .apiError⟩ := by
      simp [pipelineRun, h1]
    rw [hP] at he
    cases Option.some.inj he
    rw [hP]
    refine ⟨Or.inl rfl, fun h => absurd h (by decide), fun _ => ⟨by simpa using h1, ?_⟩⟩
    intro j hj
    simp only [List.length_cons, List.length_nil] at hj
    omega
  | some p =>
    obtain ⟨jdR, o1⟩ := p
    have ht1 : oracle.tail = o1 := chatStep_tail h1
    have hs0 : (chatStep (oracle.drop 0)).isSome := by simp [h1]
    have hd1 : oracle.drop 1 = o1 := by rw [drop_succ_eq, List.drop_zero, ht1]
    cases h2 : chatStep o1 with
    | none =>
      have hP : pipelineRun oracle st0 = ⟨st0, [.jdSum, .cvFacts], some .apiError⟩ := by
        simp [pipelineRun, h1, h2]
      rw [hP] at he
      cases Option.some.inj he
      rw [hP]
      refine ⟨Or.inl rfl, fun h => absurd h (by decide), fun _ => ⟨by simpa [hd1] using h2, ?_⟩⟩
      intro j hj
      simp only [List.length_cons, List.length_nil] at hj
      rcases j with _ | j
      · exact hs0
      · omega
    | some q =>
      obtain ⟨factsText, o2⟩ := q
      have ht2 : o1.tail = o2 := chatStep_tail h2
      have hd2 : oracle.drop 2 = o2 := by rw [drop_succ_eq, hd1, ht2]
      have hs1 : (chatStep (oracle.drop 1)).isSome := by simp [hd1, h2]
      by_cases hf : parseBulletLines factsText = []
      · have hP : pipelineRun oracle st0 = ⟨st0, [.jdSum, .cvFacts], some .noFacts⟩ := by
          simp [pipelineRun, h1, h2, List.isEmpty_iff, hf]
        rw [hP] at he
        cases Option.some.inj he
        rw [hP]
        exact ⟨Or.inr rfl, fun _ => rfl, fun h => absurd h (by decide)⟩
      · cases h3 : chatStep o2 with
        | none =>
          have hP : pipelineRun oracle st0 =
              ⟨st0, [.jdSum, .cvFacts, .recentJobs], some .apiError⟩ := by
            simp [pipelineRun, h1, h2, h3, List.isEmpty_iff, hf]
          rw [hP] at he
          cases Option.some.inj he
          rw [hP]
          refine ⟨Or.inl rfl, fun h => absurd h (by decide),
            fun _ => ⟨by simpa [hd2] using h3, ?_⟩⟩
          intro j hj
          simp only [List.length_cons, List.length_nil] at hj
          rcases j with _ | _ | j
          · exact hs0
          · exact hs1
          · omega
        | some s =>
          obtain ⟨jobsText, o3⟩ := s
          have ht3 : o2.tail = o3 := chatStep_tail h3
          have hd3 : oracle.drop 3 = o3 := by rw [drop_succ_eq, hd2, ht3]
          have hs2 : (chatStep (oracle.drop 2)).isSome := by simp [hd2, h3]
          cases h4 : chatStep o3 with
          | none =>
            have hP : pipelineRun oracle st0 =
                ⟨st0, [.jdSum, .cvFacts, .recentJobs, .draftLetter], some .apiError⟩ := by
              simp [pipelineRun, h1, h2, h3, h4, List.isEmpty_iff, hf]
            rw [hP] at he
            cases Option.some.inj he
            rw [hP]
            refine ⟨Or.inl rfl, fun h => absurd h (by decide),
              fun _ => ⟨by simpa [hd3] using h4, ?_⟩⟩
            intro j hj
            simp only [List.length_cons, List.length_nil] at hj
            rcases j with _ | _ | _ | j
            · exact hs0
            · exact hs1
            · exact hs2
            · omega
          | some t =>
            obtain ⟨draftR, o4⟩ := t
            have ht4 : o3.tail = o4 := chatStep_tail h4
            have hd4 : oracle.drop 4 = o4 := by rw [drop_succ_eq, hd3, ht4]
            have hs3 : (chatStep (oracle.drop 3)).isSome := by simp [hd3, h4]
            cases h5 : chatStep o4 with
            | none =>
              have hP : pipelineRun oracle st0 = ⟨st0, pipelineOrder, some .apiError⟩ := by
                simp [pipelineRun, h1, h2, h3, h4, h5, List.isEmpty_iff, hf]
              rw [hP] at he
              cases Option.some.inj he
              rw [hP]
              refine ⟨Or.inl rfl, fun h => absurd h (by decide),
                fun _ => ⟨by simpa [pipelineOrder, hd4] using h5, ?_⟩⟩
              intro j hj
              simp only [pipelineOrder, List.length_cons, List.length_nil] at hj
              rcases j with _ | _ | _ | _ | j
              · exact hs0
              · exact hs1
              · exact hs2
              · exact hs3
              · omega
            | some u =>
              obtain ⟨finalR, o5⟩ := u
              have hP : (pipelineRun oracle st0).err = none := by
                simp [pipelineRun, h1, h2, h3, h4, h5, List.isEmpty_iff, hf]
              rw [hP] at he
              exact Option.noConfusion he

/-- C2: on any run, a failing stage (API error or validation failure) leaves
the session state exactly as it was; an error-free run made all five calls;
the call list is a prefix of the fixed order with no repetition (no retry);
the state changes only on an error-free run (the four fields are overwritten
together only when all stages succeed); and a failure executes no later
stage: an input-validation error issues zero calls, the empty-fact check
stops after exactly the two calls already made, and on an API error the
last recorded call is precisely the one whose response failed, every
earlier call having received a response. -/
theorem generate_failure_semantics (key : List Char) (cvF jdF ltF : Option (List Char))
    (jdT : List Char) (oracle : List (Option (List Char))) (st0 : SessionState) :
    ((generate key cvF jdF ltF jdT oracle st0).err.isSome →
      (generate key cvF jdF ltF jdT oracle st0).state = st0) ∧
    ((generate key cvF jdF ltF jdT oracle st0).err = none →
      (generate key cvF jdF ltF jdT oracle st0).calls = pipelineOrder) ∧
    (generate key cvF jdF ltF jdT oracle st0).calls <+: pipelineOrder ∧
    (generate key cvF jdF ltF jdT oracle st0).calls.Nodup ∧
    ((generate key cvF jdF ltF jdT oracle st0).state ≠ st0 →
      (generate key cvF jdF ltF jdT oracle st0).err = none) ∧
    (∀ e, (generate key cvF jdF ltF jdT oracle st0).err = some e →
      ((e = GenError.noApiKey ∨ e = GenError.emptyCv ∨ e = GenError.emptyJd) →
        (generate key cvF jdF ltF jdT oracle st0).calls = []) ∧
      (e = GenError.noFacts →
        (generate key cvF jdF ltF jdT oracle st0).calls = [Stage.jdSum, Stage.cvFacts]) ∧
      (e = GenError.apiError →
        chatStep (oracle.drop
          ((generate key cvF jdF ltF jdT oracle st0).calls.length - 1)) = none ∧
        ∀ j, j + 1 < (generate key cvF jdF ltF jdT oracle st0).calls.length →
          (chatStep (oracle.drop j)).isSome)) := by
  have nodupOrder : pipelineOrder.Nodup := by decide
  by_cases hk : key = []
  · subst hk
    have e : generate [] cvF jdF ltF jdT oracle st0 = ⟨st0, [], some .noApiKey⟩ := rfl
    rw [e]
    exact ⟨fun _ => rfl, by simp, ⟨pipelineOrder, rfl⟩, List.nodup_nil, fun h => absurd rfl h,
      fun e' he' => by
        cases Option.some.inj he'
        exact ⟨fun _ => rfl, fun h => absurd h (by decide), fun h => absurd h (by decide)⟩⟩
  · by_cases hc : pick_input [] cvF = []
    · have e : generate key cvF jdF ltF jdT oracle st0 = ⟨st0, [], some .emptyCv⟩ := by
        simp [generate, List.isEmpty_iff, hk, hc]
      rw [e]
      exact ⟨fun _ => rfl, by simp, ⟨pipelineOrder, rfl⟩, List.nodup_nil, fun h => absurd rfl h,
        fun e' he' => by
          cases Option.some.inj he'
          exact ⟨fun _ => rfl, fun h => absurd h (by decide), fun h => absurd h (by decide)⟩⟩
    · by_cases hj : pick_input jdT jdF = []
      · have e : generate key cvF jdF ltF jdT oracle st0 = ⟨st0, [], some .emptyJd⟩ := by
          simp [generate, List.isEmpty_iff, hk, hc, hj]
        rw [e]
        exact ⟨fun _ => rfl, by simp, ⟨pipelineOrder, rfl⟩, List.nodup_nil, fun h => absurd rfl h,
          fun e' he' => by
            cases Option.some.inj he'
            exact ⟨fun _ => rfl, fun h => absurd h (by decide), fun h => absurd h (by decide)⟩⟩
      · rw [generate_valid key cvF jdF ltF jdT oracle st0 hk hc hj]
        obtain ⟨h1, h2, h3, h4⟩ := pipelineRun_spec oracle st0
        refine ⟨h2, h3, h1, nodupOrder.sublist h1.sublist, h4, ?_⟩
        intro e he
        obtain ⟨q1, q2, q3⟩ := pipelineRun_halt oracle st0 e he
        refine ⟨?_, q2, q3⟩
        intro hor
        rcases q1 with rfl | rfl <;>
          rcases hor with h | h | h <;> exact absurd h (by decide)

/-- Witness for C2 at a concrete failing run (the draft call errors). -/
theorem generate_failure_semantics_witness :
    ((generate (toCl "k") (some (toCl "cv")) none none (toCl "jd")
        [some (toCl "- f"), some (toCl "- f"), some (toCl "- j"), none] initialSession).err.isSome →
      (generate (toCl "k") (some (toCl "cv")) none none (toCl "jd")
        [some (toCl "- f"), some (toCl "- f"), some (toCl "- j"), none] initialSession).state =
        initialSession) ∧
    ((generate (toCl "k") (some (toCl "cv")) none none (toCl "jd")
        [some (toCl "- f"), some (toCl "- f"), some (toCl "- j"), none] initialSession).err = none →
      (generate (toCl "k") (some (toCl "cv")) none none (toCl "jd")
        [some (toCl "- f"), some (toCl "- f"), some (toCl "- j"), none] initialSession).calls =
        pipelineOrder) ∧
    (generate (toCl "k") (some (toCl "cv")) none none (toCl "jd")
        [some (toCl "- f"), some (toCl "- f"), some (toCl "- j"), none] initialSession).calls <+:
      pipelineOrder ∧
    (generate (toCl "k") (some (toCl "cv")) none none (toCl "jd")
        [some (toCl "- f"), some (toCl "- f"), some (toCl "- j"), none] initialSession).calls.Nodup ∧
    ((generate (toCl "k") (some (toCl "cv")) none none (toCl "jd")
        [some (toCl "- f"), some (toCl "- f"), some (toCl "- j"), none] initialSession).state ≠
        initialSession →
      (generate (toCl "k") (some (toCl "cv")) none none (toCl "jd")
        [some (toCl "- f"), some (toCl "- f"), some (toCl "- j"), none] initialSession).err =
        none) ∧
    (∀ e, (generate (toCl "k") (some (toCl "cv")) none none (toCl "jd")
        [some (toCl "- f"), some (toCl "- f"), some (toCl "- j"), none] initialSession).err =
        some e →
      ((e = GenError.noApiKey ∨ e = GenError.emptyCv ∨ e = GenError.emptyJd) →
        (generate (toCl "k") (some (toCl "cv")) none none (toCl "jd")
          [some (toCl "- f"), some (toCl "- f"), some (toCl "- j"), none]
          initialSession).calls = []) ∧
      (e = GenError.noFacts →
        (generate (toCl "k") (some (toCl "cv")) none none (toCl "jd")
          [some (toCl "- f"), some (toCl "- f"), some (toCl "- j"), none]
          initialSession).calls = [Stage.jdSum, Stage.cvFacts]) ∧
      (e = GenError.apiError →
        chatStep (([some (toCl "- f"), some (toCl "- f"), some (toCl "- j"), none] :
            List (Option (List Char))).drop
          ((generate (toCl "k") (some (toCl "cv")) none none (toCl "jd")
            [some (toCl "- f"), some (toCl "- f"), some (toCl "- j"), none]
            initialSession).calls.length - 1)) = none ∧
        ∀ j, j + 1 < (generate (toCl "k") (some (toCl "cv")) none none (toCl "jd")
            [some (toCl "- f"), some (toCl "- f"), some (toCl "- j"), none]
            initialSession).calls.length →
          (chatStep (([some (toCl "- f"), some (toCl "- f"), some (toCl "- j"), none] :
              List (Option (List Char))).drop j)).isSome)) :=
  generate_failure_semantics (toCl "k") (some (toCl "cv")) none none (toCl "jd")
    [some (toCl "- f"), some (toCl "- f"), some (toCl "- j"), none] initialSession

/-- C7 counterexample: a well-formed JSON object embedded in prose is not
recovered when the prose carries a stray later closing brace — the
first-to-last brace span fails to parse and the parser yields `none`. -/
theorem parse_jd_summary_embedded_cex :
    (∃ pre ob post,
        toCl "x \x7b\"a\":1\x7d u \x7d v" = pre ++ ob ++ post ∧
        jsonLoads ob = some (Json.obj [(toCl "a", Json.num (toCl "1"))])) ∧
    parse_jd_summary (toCl "x \x7b\"a\":1\x7d u \x7d v") = none :=
  ⟨⟨toCl "x ", toCl "\x7b\"a\":1\x7d", toCl " u \x7d v", by decide, rfl⟩, rfl⟩

/-- C7 (amended): after code-fence stripping, a direct JSON parse is
returned as the mapping; when it fails, a parse of the first-to-last brace
span is returned when that span parses; when neither parses the result is
`none` (and the parser is total — it never raises). -/
theorem parse_jd_summary_spec :
    (∀ t j, jsonLoads (dropFenceEnd (dropFenceStart (pyStrip t))) = some j →
        parse_jd_summary t = some j) ∧
    (∀ t sp j, jsonLoads (dropFenceEnd (dropFenceStart (pyStrip t))) = none →
        braceSpan (dropFenceEnd (dropFenceStart (pyStrip t))) = some sp →
        jsonLoads sp = some j → parse_jd_summary t = some j) ∧
    (∀ t, jsonLoads (dropFenceEnd (dropFenceStart (pyStrip t))) = none →
        (∀ sp, braceSpan (dropFenceEnd (dropFenceStart (pyStrip t))) = some sp →
            jsonLoads sp = none) →
        parse_jd_summary t = none) := by
  refine ⟨?_, ?_, ?_⟩
  · intro t j h
    have ht : t ≠ [] := by
      rintro rfl
      rw [show dropFenceEnd (dropFenceStart (pyStrip ([] : List Char))) = [] from rfl] at h
      exact Option.noConfusion (h.symm.trans (show jsonLoads [] = none from rfl))
    simp [parse_jd_summary, List.isEmpty_iff, ht, h]
  · intro t sp j h1 h2 h3
    by_cases ht : t = []
    · subst ht
      rw [show dropFenceEnd (dropFenceStart (pyStrip ([] : List Char))) = [] from rfl] at h2
      exact Option.noConfusion (h2.symm.trans (show braceSpan [] = none from rfl))
    · simp [parse_jd_summary, List.isEmpty_iff, ht, h1, h2, h3]
  · intro t h1 h2
    by_cases ht : t = []
    · simp [parse_jd_summary, ht]
    · simp only [parse_jd_summary, List.isEmpty_iff, toCl, ht, if_neg, h1]
      cases hbs : braceSpan (dropFenceEnd (dropFenceStart (pyStrip t))) with
      | none => simp [List.isEmpty_iff, ht]
      | some sp => simp [List.isEmpty_iff, ht, h2 sp hbs]

/-- Witness for C7 (amended): a code-fenced JSON object parses to its
mapping; a brace span embedded in prose is recovered; prose without JSON
yields `none`. -/
theorem parse_jd_summary_spec_witness :
    parse_jd_summary (toCl "```json\n\x7b\"a\": 1\x7d\n```") =
      some (Json.obj [(toCl "a", Json.num (toCl "1"))]) ∧
    parse_jd_summary (toCl "prose \x7b\"a\": 1\x7d prose") =
      some (Json.obj [(toCl "a", Json.num (toCl "1"))]) ∧
    parse_jd_summary (toCl "no json here") = none :=
  ⟨parse_jd_summary_spec.1 _ _ rfl,
   parse_jd_summary_spec.2.1 _ (toCl "\x7b\"a\": 1\x7d") _ rfl rfl rfl,
   parse_jd_summary_spec.2.2 _ rfl (fun sp h => by
     rw [show braceSpan (dropFenceEnd (dropFenceStart (pyStrip (toCl "no json here")))) = none
           from rfl] at h
     exact Option.noConfusion h)⟩

/-- C8 counterexample: a quoted structural character survives quote
stripping and is returned as a bare `{` entry. -/
theorem fallback_requirements_structural_cex :
    ¬ (∀ e ∈ fallback_requirements (toCl "\"\x7b\""), isStructuralLine e = false) := by
  decide

/-- Helper: filtering out elements on which `f` yields nothing does not
change a `filterMap`. -/
theorem filterMap_filter_none {α β : Type} (p : α → Bool) (f : α → Option β)
    (l : List α) (h : ∀ a, p a = true → f a = none) :
    (l.filter (fun a => !p a)).filterMap f = l.filterMap f := by
  induction l with
  | nil => rfl
  | cons a rest ih =>
    by_cases hp : p a = true
    · simp [List.filter_cons, hp, List.filterMap_cons, h a hp, ih]
    · simp [List.filter_cons, Bool.eq_false_iff.mpr hp, List.filterMap_cons, ih]

/-- Helper: a kept fallback line is nonempty. -/
theorem procFallbackLine_ne_nil (raw e : List Char) (h : procFallbackLine raw = some e) :
    e ≠ [] := by
  simp only [procFallbackLine] at h
  split_ifs at h with h1 h2
  all_goals
    first
    | exact Option.noConfusion h
    | (have he := Option.some.inj h
       subst he
       simpa [List.isEmpty_iff] using h2)

/-- C8 (amended): the fallback extraction returns at most 10 entries, every
entry is nonempty, and a line that is a bare structural character after
whitespace/comma trimming is skipped (contributes no entry); an entry can
still be a bare structural character when the input line wrapped it in
quotes or behind a key label. -/
theorem fallback_requirements_amended (t : List Char) :
    (fallback_requirements t).length ≤ 10 ∧
    (∀ e ∈ fallback_requirements t, e ≠ []) ∧
    fallback_requirements t =
      (((splitLines t).filter
          (fun raw => !isStructuralLine (stripBoth (· = ',') (pyStrip raw)))).filterMap
        procFallbackLine).take 10 := by
  have hskip : ∀ raw, isStructuralLine (stripBoth (· = ',') (pyStrip raw)) = true →
      procFallbackLine raw = none := by
    intro raw h
    simp [procFallbackLine, h]
  refine ⟨?_, ?_, ?_⟩
  · by_cases ht : t = []
    · simp [fallback_requirements, ht]
    · simp only [fallback_requirements, List.isEmpty_iff, if_neg ht]
      exact List.length_take_le _ _
  · intro e he
    by_cases ht : t = []
    · simp [fallback_requirements, ht] at he
    · simp only [fallback_requirements, List.isEmpty_iff, if_neg ht] at he
      obtain ⟨raw, _, hr⟩ := List.mem_filterMap.mp (List.mem_of_mem_take he)
      exact procFallbackLine_ne_nil raw e hr
  · by_cases ht : t = []
    · subst ht; rfl
    · simp only [fallback_requirements, List.isEmpty_iff, if_neg ht]
      rw [filterMap_filter_none _ _ _ hskip]

/-- Witness for C8 (amended) on a concrete response text. -/
theorem fallback_requirements_amended_witness :
    (fallback_requirements (toCl "\x7b\n\"a\",\nrole_title: dev\n\x7d")).length ≤ 10 ∧
    (∀ e ∈ fallback_requirements (toCl "\x7b\n\"a\",\nrole_title: dev\n\x7d"), e ≠ []) ∧
    fallback_requirements (toCl "\x7b\n\"a\",\nrole_title: dev\n\x7d") =
      (((splitLines (toCl "\x7b\n\"a\",\nrole_title: dev\n\x7d")).filter
          (fun raw => !isStructuralLine (stripBoth (· = ',') (pyStrip raw)))).filterMap
        procFallbackLine).take 10 :=
  fallback_requirements_amended (toCl "\x7b\n\"a\",\nrole_title: dev\n\x7d")

/-- C10 counterexample: a requirements list containing a non-string item
makes the normalizer raise (`AttributeError` on `.strip`) instead of
returning a list — the normalizer is not total on all inputs. -/
theorem normalize_requirements_cex :
    normalize_requirements (some (.arr [Json.str (toCl "- x"), Json.num (toCl "1")])) =
      .error () := rfl

/-- C10 (amended): the normalizer is total except on lists with a non-string
item; an all-string list keeps its items in order, each stripped with one
leading bullet marker removed (an entry may be empty or still start with a
dash when markers repeat) and blank items dropped; a string input is split
on line breaks and treated likewise; any other input yields the empty list. -/
theorem normalize_requirements_amended :
    (∀ items, (∀ it ∈ items, ∃ s, it = Json.str s) →
        normalize_requirements (some (.arr items)) =
          .ok (items.filterMap (fun it =>
            match it with
            | Json.str s => normReqItem s
            | _ => none))) ∧
    (∀ s, normalize_requirements (some (.str s)) =
        .ok ((splitLines s).filterMap normReqItem)) ∧
    (∀ j, (∀ items, j ≠ Json.arr items) → (∀ s, j ≠ Json.str s) →
        normalize_requirements (some j) = .ok []) ∧
    normalize_requirements none = .ok [] := by
  refine ⟨?_, fun s => rfl, ?_, rfl⟩
  · intro items h
    have : ∃ strs, strItems items = some strs ∧
        strs.filterMap normReqItem = items.filterMap (fun it =>
          match it with
          | Json.str s => normReqItem s
          | _ => none) := by
      induction items with
      | nil => exact ⟨[], rfl, rfl⟩
      | cons it rest ih =>
        obtain ⟨s, rfl⟩ := h it (List.mem_cons_self _ _)
        obtain ⟨strs, h1, h2⟩ := ih (fun x hx => h x (List.mem_cons_of_mem _ hx))
        exact ⟨s :: strs, by simp [strItems, h1], by simp [List.filterMap_cons, h2]⟩
    obtain ⟨strs, h1, h2⟩ := this
    simp [normalize_requirements, h1, h2]
  · intro j h1 h2
    cases j with
    | arr items => exact absurd rfl (h1 items)
    | str s => exact absurd rfl (h2 s)
    | null => rfl
    | bool b => rfl
    | num r => rfl
    | obj kvs => rfl

/-- Witness for C10 (amended) on a concrete all-string list. -/
theorem normalize_requirements_amended_witness :
    normalize_requirements (some (.arr [Json.str (toCl "- a"), Json.str (toCl "--b")])) =
      .ok ([Json.str (toCl "- a"), Json.str (toCl "--b")].filterMap (fun it =>
        match it with
        | Json.str s => normReqItem s
        | _ => none)) :=
  normalize_requirements_amended.1 _ (by
    intro it hit
    rcases List.mem_cons.mp hit with rfl | hit2
    · exact ⟨_, rfl⟩
    · rcases List.mem_cons.mp hit2 with rfl | h3
      · exact ⟨_, rfl⟩
      · exact absurd h3 (List.not_mem_nil _))

/-! ### Lemmas about `rfindIdx`, stripping, and the truncation step -/

/-- An index returned by `rfindIdx` is in range. -/
theorem rfindIdx_lt (p : Char → Bool) :
    ∀ (l : List Char) (k : Nat), rfindIdx p l = some k → k < l.length := by
  intro l
  induction l with
  | nil => intro k h; exact Option.noConfusion h
  | cons c rest ih =>
    intro k h
    unfold rfindIdx at h
    cases hr : rfindIdx p rest with
    | some k' =>
      rw [hr] at h
      cases Option.some.inj h
      exact Nat.succ_lt_succ (ih k' hr)
    | none =>
      rw [hr] at h
      by_cases hp : p c
      · rw [if_pos hp] at h
        cases Option.some.inj h
        exact Nat.succ_pos _
      · rw [if_neg hp] at h
        exact Option.noConfusion h

/-- The character at an index returned by `rfindIdx` satisfies the predicate. -/
theorem rfindIdx_get (p : Char → Bool) :
    ∀ (l : List Char) (k : Nat), rfindIdx p l = some k →
      ∃ c, l[k]? = some c ∧ p c = true := by
  intro l
  induction l with
  | nil => intro k h; exact Option.noConfusion h
  | cons c rest ih =>
    intro k h
    unfold rfindIdx at h
    cases hr : rfindIdx p rest with
    | some k' =>
      rw [hr] at h
      cases Option.some.inj h
      obtain ⟨d, hd, hp⟩ := ih k' hr
      exact ⟨d, by simpa using hd, hp⟩
    | none =>
      rw [hr] at h
      by_cases hp : p c
      · rw [if_pos hp] at h
        cases Option.some.inj h
        exact ⟨c, List.getElem?_cons_zero, hp⟩
      · rw [if_neg hp] at h
        exact Option.noConfusion h

/-- When `rfindIdx` finds nothing, no element satisfies the predicate. -/
theorem rfindIdx_none (p : Char → Bool) :
    ∀ (l : List Char), rfindIdx p l = none → ∀ c ∈ l, p c = false := by
  intro l
  induction l with
  | nil => intro _ c hc; exact absurd hc (List.not_mem_nil c)
  | cons c rest ih =>
    intro h d hd
    unfold rfindIdx at h
    cases hr : rfindIdx p rest with
    | some k' => rw [hr] at h; exact Option.noConfusion h
    | none =>
      rw [hr] at h
      by_cases hp : p c
      · rw [if_pos hp] at h; exact Option.noConfusion h
      · rcases List.mem_cons.mp hd with rfl | hd'
        · exact Bool.eq_false_iff.mpr hp
        · exact ih hr d hd'

/-- The index returned by `rfindIdx` is the last satisfying one: beyond it the predicate fails. -/
theorem rfindIdx_last (p : Char → Bool) :
    ∀ (l : List Char) (k : Nat), rfindIdx p l = some k →
      ∀ j c, k < j → l[j]? = some c → p c = false := by
  intro l
  induction l with
  | nil => intro k h; exact Option.noConfusion h
  | cons c rest ih =>
    intro k h j d hkj hj
    unfold rfindIdx at h
    cases hr : rfindIdx p rest with
    | some k' =>
      rw [hr] at h
      cases Option.some.inj h
      cases j with
      | zero => exact absurd hkj (Nat.not_lt_zero _)
      | succ j' =>
        rw [List.getElem?_cons_succ] at hj
        exact ih k' hr j' d (Nat.lt_of_succ_lt_succ hkj) hj
    | none =>
      rw [hr] at h
      by_cases hp : p c
      · rw [if_pos hp] at h
        cases Option.some.inj h
        cases j with
        | zero => exact absurd hkj (Nat.not_lt_zero _)
        | succ j' =>
          rw [List.getElem?_cons_succ] at hj
          exact rfindIdx_none p rest hr d (List.getElem?_mem hj)
      · rw [if_neg hp] at h
        exact Option.noConfusion h

/-- When some element satisfies the predicate, `rfindIdx` finds an index. -/
theorem rfindIdx_isSome (p : Char → Bool) :
    ∀ (l : List Char), (∃ c ∈ l, p c = true) → (rfindIdx p l).isSome := by
  intro l
  induction l with
  | nil => rintro ⟨c, hc, _⟩; exact absurd hc (List.not_mem_nil c)
  | cons c rest ih =>
    rintro ⟨d, hd, hp⟩
    unfold rfindIdx
    cases hr : rfindIdx p rest with
    | some k' => rfl
    | none =>
      rcases List.mem_cons.mp hd with rfl | hd'
      · rw [if_pos hp]; rfl
      · exact absurd hp (by simp [rfindIdx_none p rest hr d hd'])

/-- The result of `dropTrailing` is a prefix of its input. -/
theorem dropTrailing_pre (p : Char → Bool) (x : List Char) : dropTrailing p x <+: x := by
  obtain ⟨w, hw⟩ := List.dropWhile_suffix (l := x.reverse) p
  exact ⟨w.reverse, by unfold dropTrailing; rw [← List.reverse_append, hw, List.reverse_reverse]⟩

/-- The head of `dropWhile p` does not satisfy `p`. -/
theorem dropWhile_head_false (p : Char → Bool) :
    ∀ (x : List Char) c r, x.dropWhile p = c :: r → p c = false := by
  intro x
  induction x with
  | nil => intro c r h; exact List.noConfusion h
  | cons a x' ih =>
    intro c r h
    rw [List.dropWhile_cons] at h
    by_cases hp : p a
    · rw [if_pos hp] at h; exact ih c r h
    · rw [if_neg hp] at h
      cases h
      exact Bool.eq_false_iff.mpr hp

/-- The head of a stripped string is not whitespace. -/
theorem pyStrip_head_not_space (l : List Char) (c : Char) (r : List Char)
    (h : pyStrip l = c :: r) : pySpace c = false := by
  have hpre : pyStrip l <+: l.dropWhile pySpace := dropTrailing_pre pySpace _
  rw [h] at hpre
  obtain ⟨w, hw⟩ := hpre
  exact dropWhile_head_false pySpace l c (r ++ w) (by rw [← hw]; rfl)

set_option maxRecDepth 10000 in
/-- C6 counterexample: an input longer than the limit only by trailing
whitespace is not truncated at all — the formatter measures its stripped
form, so no ellipsis is appended even though the input is over the limit
and a space occurs before the cutoff. -/
theorem excerpt_truncation_cex :
    (toCl "ab cd" ++ List.replicate 496 ' ').length > 500 ∧
    (toCl "ab cd" ++ List.replicate 496 ' ')[2]? = some ' ' ∧
    mkSnippet (toCl "ab cd" ++ List.replicate 496 ' ') 500 = toCl "ab cd" ∧
    ¬ toCl "..." <:+ mkSnippet (toCl "ab cd" ++ List.replicate 496 ' ') 500 := by
  refine ⟨by decide, by decide, by decide, by decide⟩

/-- C6 (amended): on input whose STRIPPED form exceeds the limit, when a
space occurs in the first `limit` characters the snippet is truncated
exactly at the last space before the cutoff — the character at the
truncation point is a space (so no word is split), nothing after it up to
the cutoff is a space (it is the nearest preceding space), and an ellipsis
is appended. -/
theorem excerpt_truncation_word_boundary (text : List Char) (limit : Nat)
    (hover : limit < (pyStrip text).length)
    (hsp : ∃ i : Nat, ((pyStrip text).take limit)[i]? = some ' ') :
    ∃ k, 0 < k ∧ ((pyStrip text).take limit)[k]? = some ' ' ∧
      (∀ j c, k < j → ((pyStrip text).take limit)[j]? = some c → c ≠ ' ') ∧
      mkSnippet text limit = ((pyStrip text).take limit).take k ++ toCl "..." := by
  obtain ⟨i, hi⟩ := hsp
  have hmem : ' ' ∈ (pyStrip text).take limit := List.getElem?_mem hi
  have hfind : (rfindIdx (· = ' ') ((pyStrip text).take limit)).isSome :=
    rfindIdx_isSome _ _ ⟨' ', hmem, by simp⟩
  obtain ⟨k, hk⟩ := Option.isSome_iff_exists.mp hfind
  obtain ⟨d, hd, hdp⟩ := rfindIdx_get _ _ _ hk
  have hds : d = ' ' := by simpa using hdp
  subst hds
  have hk0 : 0 < k := by
    rcases Nat.eq_zero_or_pos k with rfl | hpos
    · exfalso
      cases hraw : pyStrip text with
      | nil => rw [hraw] at hover; exact absurd hover (by simp)
      | cons c0 raw' =>
        have hc0 : pySpace c0 = false := pyStrip_head_not_space text c0 raw' hraw
        cases limit with
        | zero => rw [hraw] at hd; simp at hd
        | succ n =>
          rw [hraw, List.take_succ_cons] at hd
          rw [List.getElem?_cons_zero] at hd
          cases Option.some.inj hd
          simp [pySpace] at hc0
    · exact hpos
  refine ⟨k, hk0, hd, ?_, ?_⟩
  · intro j c hkj hj hcs
    subst hcs
    have := rfindIdx_last _ _ _ hk j ' ' hkj hj
    simp at this
  · simp only [mkSnippet, if_pos hover, truncateAtWord, hk, if_pos hk0]

/-- Witness for C6 at a concrete over-limit input. -/
theorem excerpt_truncation_word_boundary_witness :
    ∃ k, 0 < k ∧ ((pyStrip (toCl "ab cd ef")).take 5)[k]? = some ' ' ∧
      (∀ j c, k < j → ((pyStrip (toCl "ab cd ef")).take 5)[j]? = some c → c ≠ ' ') ∧
      mkSnippet (toCl "ab cd ef") 5 = ((pyStrip (toCl "ab cd ef")).take 5).take k ++ toCl "..." :=
  excerpt_truncation_word_boundary (toCl "ab cd ef") 5 (by decide) ⟨2, by decide⟩

/-! ### Infrastructure for the excerpt-content theorem (C5) -/

/-- A piece of text is line-break free. -/
def lbFree (l : List Char) : Prop := ∀ c ∈ l, isLineBreak c = false

/-- A prefix is an infix. -/
theorem preInfx {a l : List Char} (h : a <+: l) : a <:+: l := h.isInfix

/-- A suffix is an infix. -/
theorem sfxInfx {a l : List Char} (h : a <:+ l) : a <:+: l := h.isInfix

/-- An infix of a tail is an infix of the whole. -/
theorem infx_cons_of {t m : List Char} (c : Char) (h : t <:+: m) : t <:+: c :: m := by
  obtain ⟨u, v, huv⟩ := h
  exact ⟨c :: u, v, by rw [← huv]; rfl⟩

/-- An infix of `c :: m` is a prefix of it or an infix of `m`. -/
theorem infx_cons_cases {t m : List Char} {c : Char} (h : t <:+: c :: m) :
    t <+: c :: m ∨ t <:+: m := by
  obtain ⟨u, v, huv⟩ := h
  cases u with
  | nil => exact Or.inl ⟨v, by simpa using huv⟩
  | cons d u' =>
    cases huv
    exact Or.inr ⟨u', v, rfl⟩

/-- A prefix of `c :: m` is empty or `c` followed by a prefix of `m`. -/
theorem pre_cons_cases {t m : List Char} {c : Char} (h : t <+: c :: m) :
    t = [] ∨ ∃ t', t = c :: t' ∧ t' <+: m := by
  cases t with
  | nil => exact Or.inl rfl
  | cons d t' =>
    obtain ⟨w, hw⟩ := h
    cases hw
    exact Or.inr ⟨t', rfl, ⟨w, rfl⟩⟩

/-- A prefix of a concatenation stops inside the first part or covers it. -/
theorem pre_append_cases {t x y : List Char} (h : t <+: x ++ y) :
    t <+: x ∨ ∃ t', t = x ++ t' ∧ t' <+: y := by
  induction x generalizing t with
  | nil => exact Or.inr ⟨t, rfl, h⟩
  | cons c x' ih =>
    rcases pre_cons_cases h with rfl | ⟨t', rfl, ht'⟩
    · exact Or.inl ⟨c :: x' , rfl⟩
    · rcases ih ht' with h1 | ⟨t'', rfl, ht''⟩
      · obtain ⟨w, hw⟩ := h1
        exact Or.inl ⟨w, by rw [← hw]; rfl⟩
      · exact Or.inr ⟨t'', rfl, ht''⟩

/-- Elements of a line-break-free list are unaffected by membership transfer. -/
theorem lbFree_of_infx {t l : List Char} (h : t <:+: l) (hl : lbFree l) : lbFree t :=
  fun c hc => hl c (h.sublist.subset hc)

/-- A line-break-free prefix of `x ++ c :: y` with `c` a line break is a prefix
of `x`. -/
theorem lbFree_pre_append {t x y : List Char} {c : Char} (ht : lbFree t)
    (hc : isLineBreak c = true) (h : t <+: x ++ c :: y) : t <+: x := by
  rcases pre_append_cases h with h1 | ⟨t', rfl, ht'⟩
  · exact h1
  · rcases pre_cons_cases ht' with rfl | ⟨t'', rfl, _⟩
    · exact ⟨[], by simp⟩
    · exact absurd (ht c (by simp)) (by simp [hc])

/-- Unconditional `splitLines` equation for the `\r\n` pair. -/
theorem splitLines_crlf (rest : List Char) :
    splitLines ('\r' :: '\n' :: rest) = [] :: splitLines rest := rfl

/-- Conditional `splitLines` equation for a head that does not start `\r\n`. -/
theorem splitLines_cons (c : Char) (rest : List Char)
    (h : ∀ r2, c = '\r' → rest = '\n' :: r2 → False) :
    splitLines (c :: rest) =
      if isLineBreak c then [] :: splitLines rest else prependFirst c (splitLines rest) := by
  rw [splitLines]
  exact h

/-- From a shifted prefix to an infix. -/
theorem shift_infx {a x l : List Char} {c : Char} (h : a ++ c :: x <+: l) : x <:+: l := by
  obtain ⟨w, hw⟩ := h
  exact ⟨a ++ [c], w, by rw [← hw]; simp⟩

/-- The first piece of `splitLines` is a prefix of the input. -/
theorem splitLines_head_pre : ∀ (l h : List Char), (splitLines l).head? = some h → h <+: l := by
  intro l
  induction l using splitLines.induct with
  | case1 => intro h hh; exact Option.noConfusion hh
  | case2 rest ih =>
    intro h hh
    rw [splitLines_crlf] at hh
    cases Option.some.inj hh
    exact ⟨_, rfl⟩
  | case3 c rest h1 hb ih =>
    intro h hh
    rw [splitLines_cons c rest h1, if_pos hb] at hh
    cases Option.some.inj hh
    exact ⟨_, rfl⟩
  | case4 c rest h1 hb ih =>
    intro h hh
    rw [splitLines_cons c rest h1, if_neg hb] at hh
    cases hs : splitLines rest with
    | nil =>
      rw [hs] at hh
      simp only [prependFirst, List.head?_cons] at hh
      cases Option.some.inj hh
      exact ⟨rest, rfl⟩
    | cons h0 t0 =>
      rw [hs] at hh
      simp only [prependFirst, List.head?_cons] at hh
      cases Option.some.inj hh
      obtain ⟨w, hw⟩ := ih h0 (by rw [hs]; rfl)
      exact ⟨w, by rw [← hw]; rfl⟩

/-- Every piece of `splitLines` after the first starts right after a
line-break character of the input. -/
theorem splitLines_tail_shift : ∀ (l x : List Char), x ∈ (splitLines l).tail →
    ∃ a c, isLineBreak c = true ∧ a ++ c :: x <+: l := by
  intro l
  induction l using splitLines.induct with
  | case1 => intro x hx; simp [splitLines] at hx
  | case2 rest ih =>
    intro x hx
    rw [splitLines_crlf] at hx
    simp only [List.tail_cons] at hx
    cases hs : splitLines rest with
    | nil => rw [hs] at hx; exact absurd hx (List.not_mem_nil x)
    | cons h0 t0 =>
      rw [hs] at hx
      rcases List.mem_cons.mp hx with rfl | hx'
      · obtain ⟨w, hw⟩ := splitLines_head_pre rest x (by rw [hs]; rfl)
        exact ⟨['\r'], '\n', by simp [isLineBreak], ⟨w, by rw [← hw]; rfl⟩⟩
      · obtain ⟨a, c, hc, ⟨w, hw⟩⟩ := ih x (by rw [hs]; exact hx')
        exact ⟨'\r' :: '\n' :: a, c, hc, ⟨w, by rw [← hw]; rfl⟩⟩
  | case3 c rest h1 hb ih =>
    intro x hx
    rw [splitLines_cons c rest h1, if_pos hb] at hx
    simp only [List.tail_cons] at hx
    cases hs : splitLines rest with
    | nil => rw [hs] at hx; exact absurd hx (List.not_mem_nil x)
    | cons h0 t0 =>
      rw [hs] at hx
      rcases List.mem_cons.mp hx with rfl | hx'
      · obtain ⟨w, hw⟩ := splitLines_head_pre rest x (by rw [hs]; rfl)
        exact ⟨[], c, hb, ⟨w, by rw [← hw]; rfl⟩⟩
      · obtain ⟨a, c', hc, ⟨w, hw⟩⟩ := ih x (by rw [hs]; exact hx')
        exact ⟨c :: a, c', hc, ⟨w, by rw [← hw]; rfl⟩⟩
  | case4 c rest h1 hb ih =>
    intro x hx
    rw [splitLines_cons c rest h1, if_neg hb] at hx
    cases hs : splitLines rest with
    | nil => rw [hs] at hx; simp [prependFirst] at hx
    | cons h0 t0 =>
      rw [hs] at hx
      simp only [prependFirst, List.tail_cons] at hx
      obtain ⟨a, c', hc, ⟨w, hw⟩⟩ := ih x (by rw [hs]; exact hx)
      exact ⟨c :: a, c', hc, ⟨w, by rw [← hw]; rfl⟩⟩

/-- Every piece of `splitLines` is line-break free. -/
theorem splitLines_lbFree : ∀ (l x : List Char), x ∈ splitLines l → lbFree x := by
  intro l
  induction l using splitLines.induct with
  | case1 => intro x hx; simp [splitLines] at hx
  | case2 rest ih =>
    intro x hx
    rw [splitLines_crlf] at hx
    rcases List.mem_cons.mp hx with rfl | hx'
    · intro c hc; exact absurd hc (List.not_mem_nil c)
    · exact ih x hx'
  | case3 c rest h1 hb ih =>
    intro x hx
    rw [splitLines_cons c rest h1, if_pos hb] at hx
    rcases List.mem_cons.mp hx with rfl | hx'
    · intro d hd; exact absurd hd (List.not_mem_nil d)
    · exact ih x hx'
  | case4 c rest h1 hb ih =>
    intro x hx
    rw [splitLines_cons c rest h1, if_neg hb] at hx
    cases hs : splitLines rest with
    | nil =>
      rw [hs] at hx
      simp only [prependFirst] at hx
      rcases List.mem_cons.mp hx with rfl | hx'
      · intro d hd
        rcases List.mem_cons.mp hd with rfl | hd'
        · exact Bool.eq_false_iff.mpr hb
        · exact absurd hd' (List.not_mem_nil d)
      · exact absurd hx' (List.not_mem_nil x)
    | cons h0 t0 =>
      rw [hs] at hx
      simp only [prependFirst] at hx
      rcases List.mem_cons.mp hx with rfl | hx'
      · intro d hd
        rcases List.mem_cons.mp hd with rfl | hd'
        · exact Bool.eq_false_iff.mpr hb
        · exact ih h0 (by rw [hs]; exact List.mem_cons_self _ _) d hd'
      · exact ih x (by rw [hs]; exact List.mem_cons_of_mem _ hx')

/-- Every piece of `splitLines` is a prefix of the input or sits right after
a line break of the input. -/
theorem splitLines_mem_pre_or_shift (l x : List Char) (h : x ∈ splitLines l) :
    x <+: l ∨ ∃ a c, isLineBreak c = true ∧ a ++ c :: x <+: l := by
  cases hs : splitLines l with
  | nil => rw [hs] at h; exact absurd h (List.not_mem_nil x)
  | cons h0 t0 =>
    rw [hs] at h
    rcases List.mem_cons.mp h with rfl | h'
    · exact Or.inl (splitLines_head_pre l x (by rw [hs]; rfl))
    · exact Or.inr (splitLines_tail_shift l x (by rw [hs]; exact h'))

/-- Every piece of `splitLines` is an infix of the input. -/
theorem splitLines_mem_infx (l x : List Char) (h : x ∈ splitLines l) : x <:+: l := by
  rcases splitLines_mem_pre_or_shift l x h with h1 | ⟨a, c, _, h2⟩
  · exact preInfx h1
  · exact shift_infx h2

/-- A line-break-free prefix of the glyph substitution comes from a prefix
of its input (substituted positions hold `\n`). -/
theorem glyphSub_pre : ∀ (x t : List Char), lbFree t → t <+: glyphSub x → t <+: x := by
  intro x
  induction x with
  | nil => intro t _ h; simpa [glyphSub] using h
  | cons c x' ih =>
    intro t ht h
    rcases pre_cons_cases (by simpa [glyphSub] using h) with rfl | ⟨t', rfl, ht'⟩
    · exact ⟨c :: x', rfl⟩
    · by_cases hg : glyphChar c
      · exact absurd (ht '\n' (by simp [hg])) (by simp [isLineBreak])
      · obtain ⟨w, hw⟩ := ih t' (fun d hd => ht d (by simp [hg, hd])) ht'
        exact ⟨w, by rw [← hw]; simp [hg]⟩

/-- A line-break-free infix of the glyph substitution is an infix of its input. -/
theorem glyphSub_infx : ∀ (x t : List Char), lbFree t → t <:+: glyphSub x → t <:+: x := by
  intro x
  induction x with
  | nil => intro t _ h; simpa [glyphSub] using h
  | cons c x' ih =>
    intro t ht h
    rcases infx_cons_cases (show t <:+: _ :: glyphSub x' by simpa [glyphSub] using h) with
      h1 | h2
    · exact preInfx (glyphSub_pre (c :: x') t ht (by simpa [glyphSub] using h1))
    · exact infx_cons_of c (ih t ht h2)

/-- Transfer of line-break-free prefixes and infixes through the dash-clause
substitution: the substitution only introduces `\n`, so a line-break-free
piece of its output is literally a piece of its input. -/
theorem dashSubF_trans : ∀ (f : Nat) (x : List Char),
    (∀ t, lbFree t → t <+: dashSubF f x → t <+: x) ∧
    (∀ t, lbFree t → t <:+: dashSubF f x → t <:+: x) := by
  intro f
  induction f with
  | zero => exact fun x => ⟨fun t _ h => h, fun t _ h => h⟩
  | succ f ih =>
    intro x
    cases x with
    | nil => exact ⟨fun t _ h => h, fun t _ h => h⟩
    | cons c rest =>
      by_cases hc : pySpace c
      · by_cases hd : isDashWs (rest.dropWhile pySpace)
        · have heq : dashSubF (f + 1) (c :: rest) =
              '\n' :: dashSubF f ((rest.dropWhile pySpace).tail.dropWhile pySpace) := by
            simp [dashSubF, hc, hd]
          have hsfx : (rest.dropWhile pySpace).tail.dropWhile pySpace <:+ c :: rest :=
            ((List.dropWhile_suffix _).trans
              ((List.tail_suffix _).trans (List.dropWhile_suffix _))).trans
              (List.suffix_cons c rest)
          have hpre : ∀ t, lbFree t → t <+: dashSubF (f + 1) (c :: rest) → t <+: c :: rest := by
            intro t ht h
            rw [heq] at h
            rcases pre_cons_cases h with rfl | ⟨t', rfl, _⟩
            · exact ⟨c :: rest, rfl⟩
            · exact absurd (ht '\n' (by simp)) (by simp [isLineBreak])
          refine ⟨hpre, ?_⟩
          intro t ht h
          rw [heq] at h
          rcases infx_cons_cases h with h1 | h2
          · exact preInfx (hpre t ht (by rw [heq]; exact h1))
          · exact ((ih _).2 t ht h2).trans (sfxInfx hsfx)
        · have heq : dashSubF (f + 1) (c :: rest) = c :: dashSubF f rest := by
            simp [dashSubF, hc, hd]
          have hpre : ∀ t, lbFree t → t <+: dashSubF (f + 1) (c :: rest) → t <+: c :: rest := by
            intro t ht h
            rw [heq] at h
            rcases pre_cons_cases h with rfl | ⟨t', rfl, ht'⟩
            · exact ⟨c :: rest, rfl⟩
            · obtain ⟨w, hw⟩ := (ih rest).1 t' (fun d hd => ht d (by simp [hd])) ht'
              exact ⟨w, by rw [← hw]; rfl⟩
          refine ⟨hpre, ?_⟩
          intro t ht h
          rw [heq] at h
          rcases infx_cons_cases h with h1 | h2
          · exact preInfx (hpre t ht (by rw [heq]; exact h1))
          · exact infx_cons_of c ((ih rest).2 t ht h2)
      · have heq : dashSubF (f + 1) (c :: rest) = c :: dashSubF f rest := by
          simp [dashSubF, hc]
        have hpre : ∀ t, lbFree t → t <+: dashSubF (f + 1) (c :: rest) → t <+: c :: rest := by
          intro t ht h
          rw [heq] at h
          rcases pre_cons_cases h with rfl | ⟨t', rfl, ht'⟩
          · exact ⟨c :: rest, rfl⟩
          · obtain ⟨w, hw⟩ := (ih rest).1 t' (fun d hd => ht d (by simp [hd])) ht'
            exact ⟨w, by rw [← hw]; rfl⟩
        refine ⟨hpre, ?_⟩
        intro t ht h
        rw [heq] at h
        rcases infx_cons_cases h with h1 | h2
        · exact preInfx (hpre t ht (by rw [heq]; exact h1))
        · exact infx_cons_of c ((ih rest).2 t ht h2)

/-- A line-break-free infix of `dashSub` output is an infix of its input. -/
theorem dashSub_infx {x t : List Char} (ht : lbFree t) (h : t <:+: dashSub x) : t <:+: x :=
  (dashSubF_trans (x.length + 1) x).2 t ht h

/-- Stripping yields an infix. -/
theorem pyStrip_infx (l : List Char) : pyStrip l <:+: l :=
  (preInfx (dropTrailing_pre pySpace _)).trans (sfxInfx (List.dropWhile_suffix _))

/-- Taking a prefix yields an infix. -/
theorem take_infx (n : Nat) (l : List Char) : l.take n <:+: l :=
  preInfx ⟨l.drop n, List.take_append_drop n l⟩

/-- Sentence-split parts are infixes of the line; the first part is a prefix. -/
theorem sentSplitF_spec : ∀ (f : Nat) (prev : Option Char) (x : List Char),
    (∀ p ∈ sentSplitF f prev x, p <:+: x) ∧
    (∀ h, (sentSplitF f prev x).head? = some h → h <+: x) := by
  intro f
  induction f with
  | zero =>
    intro prev x
    constructor
    · intro p hp
      simp only [sentSplitF, List.mem_singleton] at hp
      subst hp
      exact List.infix_refl _
    · intro h hh
      simp only [sentSplitF, List.head?_cons] at hh
      cases Option.some.inj hh
      exact List.prefix_refl _
  | succ f ih =>
    intro prev x
    cases x with
    | nil =>
      constructor
      · intro p hp
        simp only [sentSplitF, List.mem_singleton] at hp
        subst hp
        exact List.infix_refl []
      · intro h hh
        simp only [sentSplitF, List.head?_cons] at hh
        cases Option.some.inj hh
        exact List.prefix_refl []
    | cons c rest =>
      constructor
      · intro p hp
        simp only [sentSplitF] at hp
        split at hp
        · rcases List.mem_cons.mp hp with rfl | hp'
          · exact ⟨[], c :: rest, rfl⟩
          · exact ((ih none _).1 p hp').trans (sfxInfx (List.dropWhile_suffix _))
        · cases hs : sentSplitF f (some c) rest with
          | nil =>
            rw [hs] at hp
            simp only [prependFirst, List.mem_singleton] at hp
            subst hp
            exact preInfx ⟨rest, rfl⟩
          | cons h0 t0 =>
            rw [hs] at hp
            simp only [prependFirst] at hp
            rcases List.mem_cons.mp hp with rfl | hp'
            · obtain ⟨w, hw⟩ := (ih (some c) rest).2 h0 (by rw [hs]; rfl)
              exact preInfx ⟨w, by rw [← hw]; rfl⟩
            · exact infx_cons_of c ((ih (some c) rest).1 p (by rw [hs]; exact List.mem_cons_of_mem _ hp'))
      · intro h hh
        simp only [sentSplitF] at hh
        split at hh
        · cases Option.some.inj hh
          exact ⟨c :: rest, rfl⟩
        · cases hs : sentSplitF f (some c) rest with
          | nil =>
            rw [hs] at hh
            simp only [prependFirst, List.head?_cons] at hh
            cases Option.some.inj hh
            exact ⟨rest, rfl⟩
          | cons h0 t0 =>
            rw [hs] at hh
            simp only [prependFirst, List.head?_cons] at hh
            cases Option.some.inj hh
            obtain ⟨w, hw⟩ := (ih (some c) rest).2 h0 (by rw [hs]; rfl)
            exact ⟨w, by rw [← hw]; rfl⟩

/-- Chunks of the hard-wrap loop are infixes of the wrapped line. -/
theorem wrapF_infx : ∀ (f : Nat) (x : List Char), ∀ ch ∈ wrapF f x, ch <:+: x := by
  intro f
  induction f with
  | zero =>
    intro x ch hch
    cases x with
    | nil => simp [wrapF] at hch
    | cons c r =>
      simp only [wrapF, List.mem_singleton] at hch
      subst hch
      exact List.infix_refl _
  | succ f ih =>
    intro x ch hch
    cases x with
    | nil => simp [wrapF] at hch
    | cons c r =>
      simp only [wrapF] at hch
      split at hch
      · simp only [List.mem_singleton] at hch
        subst hch
        exact List.infix_refl _
      · rcases List.mem_cons.mp hch with rfl | hch'
        · exact (pyStrip_infx _).trans (take_infx _ _)
        · exact ((ih _ ch hch').trans (pyStrip_infx _)).trans
            (sfxInfx ⟨(c :: r).take _, List.take_append_drop _ _⟩)

/-- Every line taken from the substituted snippet is an infix of it. -/
theorem excerptLines_infx (s2 : List Char) : ∀ x ∈ excerptLines s2, x <:+: s2 := by
  intro x hx
  simp only [excerptLines] at hx
  split at hx
  · simp only [List.mem_singleton] at hx
    subst hx
    exact List.infix_refl _
  · obtain ⟨l, hl, rfl⟩ := List.mem_map.mp (List.mem_of_mem_filter hx)
    exact (pyStrip_infx l).trans (splitLines_mem_infx s2 l hl)

/-- Every sentence fragment of a line is an infix of the line. -/
theorem lineParts_infx (line : List Char) : ∀ x ∈ lineParts line, x <:+: line := by
  intro x hx
  simp only [lineParts] at hx
  split at hx
  · simp only [List.mem_singleton] at hx
    subst hx
    exact List.infix_refl _
  · obtain ⟨p, hp, rfl⟩ := List.mem_map.mp (List.mem_of_mem_filter hx)
    exact (pyStrip_infx p).trans ((sentSplitF_spec _ none line).1 p hp)

/-- Every fragment in `expanded` is an infix of the substituted snippet. -/
theorem excerptExpanded_infx (text : List Char) (limit : Nat) :
    ∀ e ∈ excerptExpanded text limit, e <:+: dashSub (glyphSub (mkSnippet text limit)) := by
  intro e he
  set s2 := dashSub (glyphSub (mkSnippet text limit)) with hs2
  have hexp : ∀ x ∈ ((excerptLines s2).map lineParts).flatten, x <:+: s2 := by
    intro x hx
    obtain ⟨grp, hgrp, hxg⟩ := List.mem_flatten.mp hx
    obtain ⟨line, hline, rfl⟩ := List.mem_map.mp hgrp
    exact (lineParts_infx line x hxg).trans (excerptLines_infx s2 line hline)
  simp only [excerptExpanded] at he
  rw [← hs2] at he
  split at he
  next e0 heq =>
    split at he
    · have he0 : e0 <:+: s2 := hexp e0 (by rw [heq]; exact List.mem_singleton_self _)
      exact (wrapF_infx _ _ e he).trans he0
    · simp only [List.mem_singleton] at he
      subst he
      exact hexp e (by rw [heq]; exact List.mem_singleton_self _)
  next heq =>
    exact hexp e he

/-- The empty list is an infix of anything. -/
theorem nilInfx (l : List Char) : [] <:+: l := ⟨[], l, rfl⟩

/-- Removing a marker only removes from the front: the result is a suffix of the line. -/
theorem stripMarker_sfx (l : List Char) : stripMarker l <:+ l := by
  unfold stripMarker
  split_ifs with h1 h2
  · exact List.drop_suffix 2 l
  · exact List.nil_suffix
  · exact List.suffix_refl l

/-- Marker stripping preserves line-break freedom. -/
theorem stripMarker_lbFree {l : List Char} (h : lbFree l) : lbFree (stripMarker l) :=
  lbFree_of_infx (sfxInfx (stripMarker_sfx l)) h

/-- Under the limit, the snippet is exactly the stripped input. -/
theorem mkSnippet_short (text : List Char) (limit : Nat) (h : text.length < limit) :
    mkSnippet text limit = pyStrip text := by
  have hlen : (pyStrip text).length ≤ text.length := (pyStrip_infx text).sublist.length_le
  have hnot : ¬ limit < (pyStrip text).length := by omega
  simp only [mkSnippet, if_neg hnot]
  exact List.take_of_length_le (by omega)

/-- A line-break-free infix of the substituted snippet is an infix of the
original input (under the limit, where no truncation happens). -/
theorem frag_to_text {text t : List Char} {limit : Nat} (ht : lbFree t)
    (h : t <:+: dashSub (glyphSub (mkSnippet text limit))) (hlt : text.length < limit) :
    t <:+: text := by
  have h1 : t <:+: glyphSub (mkSnippet text limit) := dashSub_infx ht h
  have h2 : t <:+: mkSnippet text limit := glyphSub_infx _ t ht h1
  rw [mkSnippet_short text limit hlt] at h2
  exact h2.trans (pyStrip_infx text)

/-- A line-break-free prefix of a newline join is empty or a prefix of the
first segment. -/
theorem joinNl_pre (segs : List (List Char)) (t : List Char) (ht : lbFree t)
    (h : t <+: joinNl segs) : t = [] ∨ ∃ seg ∈ segs, t <+: seg := by
  induction segs with
  | nil =>
    obtain ⟨w, hw⟩ := h
    exact Or.inl (List.append_eq_nil.mp hw).1
  | cons seg tail ih =>
    cases tail with
    | nil => exact Or.inr ⟨seg, List.mem_singleton_self _, h⟩
    | cons s2 rest =>
      have h' : t <+: seg ++ '\n' :: joinNl (s2 :: rest) := h
      exact Or.inr ⟨seg, List.mem_cons_self _ _,
        lbFree_pre_append ht (by simp [isLineBreak]) h'⟩

/-- A line-break-free piece sitting right after a line break inside a
newline join lies in one segment: either still behind a break inside that
segment, or as a prefix of a later segment. -/
theorem joinNl_shift (segs : List (List Char)) (c : Char) (t : List Char)
    (hc : isLineBreak c = true) (ht : lbFree t) :
    ∀ a, a ++ c :: t <+: joinNl segs →
      ∃ seg ∈ segs, (∃ a', a' ++ c :: t <+: seg) ∨ t <+: seg := by
  induction segs with
  | nil =>
    intro a h
    obtain ⟨w, hw⟩ := h
    simp [joinNl] at hw
  | cons seg tail ih =>
    intro a h
    cases tail with
    | nil => exact ⟨seg, List.mem_singleton_self _, Or.inl ⟨a, h⟩⟩
    | cons s2 rest =>
      have h' : a ++ c :: t <+: seg ++ '\n' :: joinNl (s2 :: rest) := h
      rcases pre_append_cases h' with h1 | ⟨t', heq, ht'⟩
      · exact ⟨seg, List.mem_cons_self _ _, Or.inl ⟨a, h1⟩⟩
      · rcases pre_cons_cases ht' with rfl | ⟨t2, rfl, ht2⟩
        · rw [List.append_nil] at heq
          exact ⟨seg, List.mem_cons_self _ _, Or.inl ⟨a, heq ▸ List.prefix_refl _⟩⟩
        · have hfromJ : t <+: joinNl (s2 :: rest) →
              ∃ seg' ∈ seg :: s2 :: rest, (∃ a', a' ++ c :: t <+: seg') ∨ t <+: seg' := by
            intro hj
            rcases joinNl_pre _ t ht hj with rfl | ⟨seg', hmem, hp⟩
            · exact ⟨s2, List.mem_cons_of_mem _ (List.mem_cons_self _ _),
                Or.inr ⟨s2, rfl⟩⟩
            · exact ⟨seg', List.mem_cons_of_mem _ hmem, Or.inr hp⟩
          rcases List.append_eq_append_iff.mp heq with ⟨k, hk1, hk2⟩ | ⟨k, hk1, hk2⟩
          · cases k with
            | nil =>
              simp only [List.nil_append] at hk2
              cases hk2
              exact hfromJ ht2
            | cons d k' =>
              cases hk2
              exact absurd (ht '\n' (by simp)) (by simp [isLineBreak])
          · cases k with
            | nil =>
              simp only [List.nil_append] at hk2
              cases hk2
              exact hfromJ ht2
            | cons d k' =>
              cases hk2
              obtain ⟨seg', hmem, hcase⟩ := ih k' ht2
              exact ⟨seg', List.mem_cons_of_mem _ hmem, hcase⟩

/-- A line-break-free line lying as a prefix of a rendered segment `- e`
strips to an infix of the original input. -/
theorem marker_pre_case {text e l : List Char} {limit : Nat}
    (hee : e <:+: dashSub (glyphSub (mkSnippet text limit)))
    (hlt : text.length < limit) (hlb : lbFree l) (h : l <+: '-' :: ' ' :: e) :
    stripMarker l <:+: text := by
  rcases pre_cons_cases h with rfl | ⟨l1, rfl, hl1⟩
  · exact nilInfx text
  · rcases pre_cons_cases hl1 with rfl | ⟨l2, rfl, hl2⟩
    · rw [show stripMarker ['-'] = [] from rfl]
      exact nilInfx text
    · rw [show stripMarker ('-' :: ' ' :: l2) = l2 from rfl]
      have hl2lb : lbFree l2 := fun d hd => hlb d (by simp [hd])
      exact frag_to_text hl2lb ((preInfx hl2).trans hee) hlt

/-- C5 (amended): for nonempty input under the excerpt limit, every line of
the rendered excerpt, once its bullet marker is stripped, is a contiguous
substring of the input (no content is invented; each bullet shows input
text verbatim). -/
theorem excerpt_bullets_lines_substring (text : List Char) (limit : Nat)
    (hne : text ≠ []) (hlt : text.length < limit) :
    ∀ l ∈ splitLines (excerpt_bullets text limit), stripMarker l <:+: text := by
  intro l hl
  have hne' : text.isEmpty = false := by simp [List.isEmpty_iff, hne]
  have hout : excerpt_bullets text limit =
      joinNl ((excerptExpanded text limit).map (fun e => '-' :: ' ' :: e)) := by
    simp [excerpt_bullets, hne']
  rw [hout] at hl
  have hlb : lbFree l := splitLines_lbFree _ l hl
  rcases splitLines_mem_pre_or_shift _ l hl with hpre | ⟨a, c, hc, hshift⟩
  · rcases joinNl_pre _ l hlb hpre with rfl | ⟨seg, hsegmem, hlseg⟩
    · exact nilInfx text
    · obtain ⟨e, hemem, rfl⟩ := List.mem_map.mp hsegmem
      exact marker_pre_case (excerptExpanded_infx text limit e hemem) hlt hlb hlseg
  · obtain ⟨seg, hsegmem, hcase⟩ := joinNl_shift _ c l hc hlb a hshift
    obtain ⟨e, hemem, rfl⟩ := List.mem_map.mp hsegmem
    have hee := excerptExpanded_infx text limit e hemem
    rcases hcase with ⟨a', hsa⟩ | hpre2
    · cases a' with
      | nil =>
        obtain ⟨w, hw⟩ := hsa
        rw [List.nil_append, List.cons_append] at hw
        obtain ⟨rfl, -⟩ := List.cons.inj hw
        exact absurd hc (by simp [isLineBreak])
      | cons d1 a'' =>
        obtain ⟨w, hw⟩ := hsa
        simp only [List.cons_append, List.append_assoc] at hw
        obtain ⟨rfl, hw2⟩ := List.cons.inj hw
        cases a'' with
        | nil =>
          rw [List.nil_append] at hw2
          obtain ⟨rfl, -⟩ := List.cons.inj hw2
          exact absurd hc (by simp [isLineBreak])
        | cons d2 a3 =>
          rw [List.cons_append] at hw2
          obtain ⟨rfl, hw3⟩ := List.cons.inj hw2
          have hle : l <:+: e := ⟨a3 ++ [c], w, by rw [← hw3]; simp⟩
          exact frag_to_text (stripMarker_lbFree hlb)
            ((sfxInfx (stripMarker_sfx l)).trans (hle.trans hee)) hlt
    · exact marker_pre_case hee hlt hlb hpre2

/-- Witness for C5 (amended) at a concrete short input and a concrete line
of its rendered excerpt. -/
theorem excerpt_bullets_lines_substring_witness :
    stripMarker (toCl "- one two.") <:+: toCl "one two. three" :=
  excerpt_bullets_lines_substring (toCl "one two. three") 500 (by decide) (by decide)
    (toCl "- one two.") (by decide)

/-- C5 counterexample: for the input `see - saw` (length 9, under the
limit), the whole rendered output with bullet markers stripped and line
breaks treated as separators is not whitespace-equivalent to the input, nor
even a substring of it: the dash-clause substitution deleted the standalone
dash. -/
theorem excerpt_bullets_equiv_cex :
    normWs (stripRender (excerpt_bullets (toCl "see - saw") 500)) ≠
      normWs (toCl "see - saw") ∧
    ¬ normWs (stripRender (excerpt_bullets (toCl "see - saw") 500)) <:+:
      normWs (toCl "see - saw") := by
  constructor <;> decide

end App
